import Mathlib

/-!
# Verification of `_scripts/update_config.py`

A shallow embedding of the configuration-update pipeline of
`_scripts/update_config.py`, together with theorems settling the stated
properties of its record handlers, key annotator, segment routing, container
decompression, and version persistence.

Python values decoded from the AMF3 object stream are modelled by the
`Val` tree (scalars, ordered lists, insertion-ordered string-keyed maps).
Where the Python code relies on object identity and in-place mutation
(`handle_item_xml_info` mutates the shared category objects produced by the
AMF3 decoder's reference tables), a small explicit heap of mutable objects
(`Heap`, `HVal`, `HObj`) is used, and dictionaries/lists are heap cells.
-/

namespace UpdateConfig

/-- A decoded Python value: `None`, `bool`, `int`, `str`, `list`, or `dict`
(insertion-ordered, string keys — the shapes produced by the AMF3 reader
and consumed by the handlers in `update_config.py`). -/
inductive Val where
  | vnull : Val
  | vbool : Bool → Val
  | vint : Int → Val
  | vstr : String → Val
  | vlist : List Val → Val
  | vmap : List (String × Val) → Val
deriving Repr

mutual

/-- Structural boolean equality on `Val` (Python `==` on these shapes). -/
def Val.beq : Val → Val → Bool
  | .vnull, .vnull => true
  | .vbool a, .vbool b => a == b
  | .vint a, .vint b => a == b
  | .vstr a, .vstr b => a == b
  | .vlist a, .vlist b => Val.beqList a b
  | .vmap a, .vmap b => Val.beqEntries a b
  | _, _ => false

def Val.beqList : List Val → List Val → Bool
  | [], [] => true
  | a :: as, b :: bs => Val.beq a b && Val.beqList as bs
  | _, _ => false

def Val.beqEntries : List (String × Val) → List (String × Val) → Bool
  | [], [] => true
  | (ka, va) :: as, (kb, vb) :: bs => ka == kb && Val.beq va vb && Val.beqEntries as bs
  | _, _ => false

end

mutual

theorem Val.beq_refl : ∀ a : Val, Val.beq a a = true
  | .vnull => rfl
  | .vbool a => by simp [Val.beq]
  | .vint a => by simp [Val.beq]
  | .vstr a => by simp [Val.beq]
  | .vlist l => by simp [Val.beq, Val.beqList_refl l]
  | .vmap m => by simp [Val.beq, Val.beqEntries_refl m]

theorem Val.beqList_refl : ∀ l : List Val, Val.beqList l l = true
  | [] => rfl
  | a :: as => by simp [Val.beqList, Val.beq_refl a, Val.beqList_refl as]

theorem Val.beqEntries_refl : ∀ m : List (String × Val), Val.beqEntries m m = true
  | [] => rfl
  | (k, v) :: rest => by simp [Val.beqEntries, Val.beq_refl v, Val.beqEntries_refl rest]

end

mutual

theorem Val.eq_of_beq : ∀ a b : Val, Val.beq a b = true → a = b
  | .vnull, .vnull, _ => rfl
  | .vbool a, .vbool b, h => by simp [Val.beq] at h; simp [h]
  | .vint a, .vint b, h => by simp [Val.beq] at h; simp [h]
  | .vstr a, .vstr b, h => by simp [Val.beq] at h; simp [h]
  | .vlist a, .vlist b, h => by
      simp only [Val.beq] at h
      simp [Val.eqList_of_beq a b h]
  | .vmap a, .vmap b, h => by
      simp only [Val.beq] at h
      simp [Val.eqEntries_of_beq a b h]
  | .vnull, .vbool _, h => by simp [Val.beq] at h
  | .vnull, .vint _, h => by simp [Val.beq] at h
  | .vnull, .vstr _, h => by simp [Val.beq] at h
  | .vnull, .vlist _, h => by simp [Val.beq] at h
  | .vnull, .vmap _, h => by simp [Val.beq] at h
  | .vbool _, .vnull, h => by simp [Val.beq] at h
  | .vbool _, .vint _, h => by simp [Val.beq] at h
  | .vbool _, .vstr _, h => by simp [Val.beq] at h
  | .vbool _, .vlist _, h => by simp [Val.beq] at h
  | .vbool _, .vmap _, h => by simp [Val.beq] at h
  | .vint _, .vnull, h => by simp [Val.beq] at h
  | .vint _, .vbool _, h => by simp [Val.beq] at h
  | .vint _, .vstr _, h => by simp [Val.beq] at h
  | .vint _, .vlist _, h => by simp [Val.beq] at h
  | .vint _, .vmap _, h => by simp [Val.beq] at h
  | .vstr _, .vnull, h => by simp [Val.beq] at h
  | .vstr _, .vbool _, h => by simp [Val.beq] at h
  | .vstr _, .vint _, h => by simp [Val.beq] at h
  | .vstr _, .vlist _, h => by simp [Val.beq] at h
  | .vstr _, .vmap _, h => by simp [Val.beq] at h
  | .vlist _, .vnull, h => by simp [Val.beq] at h
  | .vlist _, .vbool _, h => by simp [Val.beq] at h
  | .vlist _, .vint _, h => by simp [Val.beq] at h
  | .vlist _, .vstr _, h => by simp [Val.beq] at h
  | .vlist _, .vmap _, h => by simp [Val.beq] at h
  | .vmap _, .vnull, h => by simp [Val.beq] at h
  | .vmap _, .vbool _, h => by simp [Val.beq] at h
  | .vmap _, .vint _, h => by simp [Val.beq] at h
  | .vmap _, .vstr _, h => by simp [Val.beq] at h
  | .vmap _, .vlist _, h => by simp [Val.beq] at h

theorem Val.eqList_of_beq : ∀ a b : List Val, Val.beqList a b = true → a = b
  | [], [], _ => rfl
  | [], _ :: _, h => by simp [Val.beqList] at h
  | _ :: _, [], h => by simp [Val.beqList] at h
  | a :: as, b :: bs, h => by
      simp only [Val.beqList, Bool.and_eq_true] at h
      simp [Val.eq_of_beq a b h.1, Val.eqList_of_beq as bs h.2]

theorem Val.eqEntries_of_beq : ∀ a b : List (String × Val), Val.beqEntries a b = true → a = b
  | [], [], _ => rfl
  | [], _ :: _, h => by simp [Val.beqEntries] at h
  | _ :: _, [], h => by simp [Val.beqEntries] at h
  | (ka, va) :: as, (kb, vb) :: bs, h => by
      simp only [Val.beqEntries, Bool.and_eq_true, beq_iff_eq] at h
      simp [h.1.1, Val.eq_of_beq va vb h.1.2, Val.eqEntries_of_beq as bs h.2]

end

instance : DecidableEq Val := fun a b =>
  if h : Val.beq a b = true then .isTrue (Val.eq_of_beq a b h)
  else .isFalse (fun he => h (he ▸ Val.beq_refl a))

/-- Test for a Python list. -/
def Val.isList : Val → Bool
  | .vlist _ => true
  | _ => false

/-- Test for a Python dict. -/
def Val.isDict : Val → Bool
  | .vmap _ => true
  | _ => false

/-!
## The Key Annotator — `add_at_prefix_to_keys` (lines 75–98)

Direct translation of the recursion: for a dict, every key whose value is a
list keeps the bare key and the list's elements are each processed
recursively; a key whose value is a dict is prefixed with `@` and the dict is
processed recursively; any other value keeps its value and the key is
prefixed with `@`.  A list input has each element processed recursively; any
other input is returned unchanged.
-/

mutual

def add_at_prefix_to_keys : Val → Val
  | .vmap es => .vmap (addAtEntries es)
  | .vlist l => .vlist (addAtList l)
  | v => v

def addAtList : List Val → List Val
  | [] => []
  | v :: vs => add_at_prefix_to_keys v :: addAtList vs

def addAtEntries : List (String × Val) → List (String × Val)
  | [] => []
  | (k, .vlist l) :: rest => (k, .vlist (addAtList l)) :: addAtEntries rest
  | (k, .vmap m) :: rest => ("@" ++ k, .vmap (addAtEntries m)) :: addAtEntries rest
  | (k, v) :: rest => ("@" ++ k, v) :: addAtEntries rest

end

theorem addAtList_eq_map : ∀ l : List Val, addAtList l = l.map add_at_prefix_to_keys
  | [] => rfl
  | v :: vs => by simp [addAtList, addAtList_eq_map vs]

/-- The per-entry action of `add_at_prefix_to_keys` on one dict entry. -/
def addAtEntry : String × Val → String × Val
  | (k, .vlist l) => (k, .vlist (addAtList l))
  | (k, .vmap m) => ("@" ++ k, .vmap (addAtEntries m))
  | (k, v) => ("@" ++ k, v)

theorem addAtEntries_eq_map : ∀ es : List (String × Val), addAtEntries es = es.map addAtEntry
  | [] => rfl
  | (k, v) :: rest => by
      cases v <;> simp [addAtEntries, addAtEntry, addAtEntries_eq_map rest]

theorem addAtEntry_fst (e : String × Val) :
    (addAtEntry e).1 = if e.2.isList then e.1 else "@" ++ e.1 := by
  obtain ⟨k, v⟩ := e
  cases v <;> rfl

/-- C1: a single application of `add_at_prefix_to_keys` returns a tree in
which every dict key whose value is a list keeps its bare key with each list
element recursively annotated, every dict key whose value is not a list gains
exactly one leading `@` (its new key is `"@" ++ k`), and inputs that are
neither dicts nor lists are returned unchanged. -/
theorem C1_key_annotator :
    (∀ v : Val, v.isList = false → v.isDict = false → add_at_prefix_to_keys v = v)
    ∧ ∀ es : List (String × Val),
        add_at_prefix_to_keys (.vmap es) = .vmap (es.map addAtEntry)
        ∧ (es.map addAtEntry).map Prod.fst
            = es.map (fun e => if e.2.isList then e.1 else "@" ++ e.1)
        ∧ ∀ k v, (k, v) ∈ es →
            (∀ l, v = .vlist l →
              (k, Val.vlist (l.map add_at_prefix_to_keys)) ∈ es.map addAtEntry)
            ∧ (v.isList = false →
              ("@" ++ k, add_at_prefix_to_keys v) ∈ es.map addAtEntry) := by
  constructor
  · intro v h1 h2
    cases v <;> simp [Val.isList, Val.isDict] at h1 h2 ⊢ <;> rfl
  · intro es
    refine ⟨by simp [add_at_prefix_to_keys, addAtEntries_eq_map], ?_, ?_⟩
    · rw [List.map_map]
      exact List.map_congr_left (fun e _ => addAtEntry_fst e)
    · intro k v hmem
      constructor
      · rintro l rfl
        have := List.mem_map_of_mem addAtEntry hmem
        simpa [addAtEntry, addAtList_eq_map] using this
      · intro hnl
        have := List.mem_map_of_mem addAtEntry hmem
        cases v <;> simp [Val.isList] at hnl ⊢ <;>
          simpa [addAtEntry, add_at_prefix_to_keys] using this

/-- Witness for C1 on a concrete dict: a list-valued key keeps its bare key
with its elements annotated, a scalar-valued key gains one `@`, and a bare
string input is unchanged. -/
theorem C1_key_annotator_witness :
    add_at_prefix_to_keys (Val.vmap [("a", .vint 1), ("b", .vlist [.vmap [("c", .vstr "x")]])])
      = .vmap ([("a", Val.vint 1), ("b", .vlist [.vmap [("c", .vstr "x")]])].map addAtEntry)
    ∧ ("b", Val.vlist ([Val.vmap [("c", .vstr "x")]].map add_at_prefix_to_keys))
        ∈ [("a", Val.vint 1), ("b", Val.vlist [.vmap [("c", .vstr "x")]])].map addAtEntry
    ∧ ("@" ++ "a", add_at_prefix_to_keys (Val.vint 1))
        ∈ [("a", Val.vint 1), ("b", Val.vlist [.vmap [("c", .vstr "x")]])].map addAtEntry
    ∧ add_at_prefix_to_keys (Val.vstr "z") = Val.vstr "z" := by
  refine ⟨(C1_key_annotator.2 _).1, ?_, ?_, C1_key_annotator.1 _ rfl rfl⟩
  · exact ((C1_key_annotator.2 _).2.2 "b" _ (by decide)).1 _ rfl
  · exact ((C1_key_annotator.2 _).2.2 "a" _ (by decide)).2 rfl

/-!
## Record handlers (lines 39–64)
-/

/-- Python dict lookup `m[k]` on the insertion-ordered entry list. -/
def mapGet (m : List (String × Val)) (k : String) : Option Val :=
  (m.find? (fun e => e.1 == k)).map (fun e => e.2)

/-- The list stored at `out["root"][k]`, when `out` has that shape; used to
inspect the tree a handler produces. -/
def stored_list (out : Val) (k : String) : Option (List Val) :=
  match out with
  | .vmap m =>
    match mapGet m "root" with
    | some (.vmap r) =>
      match mapGet r k with
      | some (.vlist l) => some l
      | _ => none
    | _ => none
  | _ => none

/-- Lines 63–64, `handle_skill_xml_info`:
`return {"root": add_at_prefix_to_keys({"item": data})}`.
The Python body never uses that `data` is a list, so the embedding is defined
on any `Val` (this is what re-applying the handler to its own dict output
means, as in the idempotence claim). -/
def handle_skill_xml_info (data : Val) : Val :=
  .vmap [("root", add_at_prefix_to_keys (.vmap [("item", data)]))]

/-- Python `dict.pop(k)` on the entry list: `none` models the `KeyError`
raised when the key is absent, otherwise the remaining entries in order. -/
def dictPop (fs : List (String × Val)) (k : String) : Option (List (String × Val)) :=
  if fs.any (fun e => e.1 == k) then some (fs.eraseP (fun e => e.1 == k)) else none

/-- Lines 56–58, `_delete_class`: `obj.pop("__class__"); return obj`, as the
post-state of `obj`.  `none` models the `AttributeError`/`KeyError` raised on
a non-dict element or a missing `__class__` key. -/
def delete_class (obj : Val) : Option Val :=
  match obj with
  | .vmap fs => (dictPop fs "__class__").map .vmap
  | _ => none

/-- Left-to-right effectful map over `Option`, mirroring a Python list
comprehension whose body may raise (the first failure aborts). -/
def mapMO (f : α → Option β) : List α → Option (List β)
  | [] => some []
  | a :: as =>
    match f a, mapMO f as with
    | some b, some bs => some (b :: bs)
    | _, _ => none

/-- Lines 55–60, `handle_gold_product_xml_info`:
`return {"root": add_at_prefix_to_keys({"item": [_delete_class(obj) for obj in data]})}`.
The in-place `pop` is translated to state passing: the result pairs the
returned tree with the post-state of the input list's elements (each input
object, mutated by `_delete_class`). -/
def handle_gold_product_xml_info (data : List Val) : Option (Val × List Val) :=
  (mapMO delete_class data).map (fun cleaned =>
    (.vmap [("root", add_at_prefix_to_keys (.vmap [("item", .vlist cleaned)]))], cleaned))

theorem mapMO_forall2 (f : α → Option β) :
    ∀ (l : List α) (r : List β), mapMO f l = some r →
      List.Forall₂ (fun a b => f a = some b) l r := by
  intro l
  induction l with
  | nil => intro r h; cases h; exact .nil
  | cons a as ih =>
    intro r h
    simp only [mapMO] at h
    cases hfa : f a with
    | none => rw [hfa] at h; exact absurd h (by simp)
    | some b =>
      rw [hfa] at h
      cases hrest : mapMO f as with
      | none => rw [hrest] at h; exact absurd h (by simp)
      | some bs =>
        rw [hrest] at h
        cases h
        exact .cons hfa (ih bs hrest)

theorem mapMO_total (f : α → Option β) :
    ∀ l : List α, (∀ a ∈ l, ∃ b, f a = some b) → ∃ r, mapMO f l = some r := by
  intro l
  induction l with
  | nil => exact fun _ => ⟨[], rfl⟩
  | cons a as ih =>
    intro h
    obtain ⟨b, hb⟩ := h a (by simp)
    obtain ⟨bs, hbs⟩ := ih (fun x hx => h x (by simp [hx]))
    exact ⟨b :: bs, by simp [mapMO, hb, hbs]⟩

theorem handle_skill_on_list (data : List Val) :
    handle_skill_xml_info (.vlist data)
      = .vmap [("root", .vmap [("item", .vlist (data.map add_at_prefix_to_keys))])] := by
  simp [handle_skill_xml_info, add_at_prefix_to_keys, addAtEntries, addAtList_eq_map]

/-- C3 counterexample: the pass-through handler does not store the input list
unchanged — the key of the single element is rewritten from `k` to `@k` by
the annotator, so the stored list differs from the input list. -/
theorem C3_counterexample :
    stored_list (handle_skill_xml_info (.vlist [.vmap [("k", .vstr "v")]])) "item"
      = some [Val.vmap [("@k", .vstr "v")]]
    ∧ [Val.vmap [("@k", .vstr "v")]] ≠ [Val.vmap [("k", .vstr "v")]] := by decide

/-- C3 (amended): `handle_skill_xml_info` wraps the input list under
`root → item`, storing the input list with each element rewritten by
`add_at_prefix_to_keys` — same length and order, elements that are neither
dicts nor lists unchanged — not the unmodified input list. -/
theorem C3_skill_stores_annotated_list (data : List Val) :
    stored_list (handle_skill_xml_info (.vlist data)) "item"
      = some (data.map add_at_prefix_to_keys)
    ∧ (data.map add_at_prefix_to_keys).length = data.length := by
  rw [handle_skill_on_list]
  exact ⟨by simp [stored_list, mapGet], by simp⟩

theorem handle_skill_on_dict (m : List (String × Val)) :
    handle_skill_xml_info (.vmap m)
      = .vmap [("root", .vmap [("@item", add_at_prefix_to_keys (.vmap m))])] := by
  show Val.vmap [("root", add_at_prefix_to_keys (.vmap [("item", .vmap m)]))] = _
  have h : add_at_prefix_to_keys (.vmap [("item", .vmap m)])
      = .vmap [("@" ++ "item", .vmap (addAtEntries m))] := by
    simp [add_at_prefix_to_keys, addAtEntries]
  rw [h]
  rfl

/-- C4 counterexample: re-applying the pass-through normalization to its own
(already normalized) output is not the identity, already on the empty record
list: the second application re-wraps and prefixes the inner `item` key. -/
theorem C4_counterexample :
    handle_skill_xml_info (handle_skill_xml_info (.vlist []))
      ≠ handle_skill_xml_info (.vlist []) := by decide

/-- C4 (amended): the pass-through normalization is never idempotent on a
normalized tree: a second application wraps the first result under a fresh
`root`, prefixes the new `item` key to `@item` (the wrapped value is a dict,
not a list), and re-annotates the whole first result, so the second result
always differs from the first. -/
theorem C4_skill_not_idempotent (data : List Val) :
    handle_skill_xml_info (handle_skill_xml_info (.vlist data))
      = .vmap [("root", .vmap [("@item",
          add_at_prefix_to_keys (handle_skill_xml_info (.vlist data)))])]
    ∧ handle_skill_xml_info (handle_skill_xml_info (.vlist data))
      ≠ handle_skill_xml_info (.vlist data) := by
  rw [handle_skill_on_list, handle_skill_on_dict]
  refine ⟨rfl, fun h => ?_⟩
  simp at h

theorem stored_item_of_wrap (l : List Val) :
    stored_list (.vmap [("root", add_at_prefix_to_keys (.vmap [("item", .vlist l)]))]) "item"
      = some (l.map add_at_prefix_to_keys) := by
  rw [show Val.vmap [("root", add_at_prefix_to_keys (.vmap [("item", .vlist l)]))]
        = handle_skill_xml_info (.vlist l) from rfl, handle_skill_on_list]
  simp [stored_list, mapGet]

theorem delete_class_ne : ∀ a b : Val, delete_class a = some b → b ≠ a
  | .vnull, _, h => by simp [delete_class] at h
  | .vbool _, _, h => by simp [delete_class] at h
  | .vint _, _, h => by simp [delete_class] at h
  | .vstr _, _, h => by simp [delete_class] at h
  | .vlist _, _, h => by simp [delete_class] at h
  | .vmap fs, b, h => by
      simp only [delete_class, dictPop] at h
      split at h
      case isTrue hany =>
        simp only [Option.map_some'] at h
        obtain ⟨x, hx, hpx⟩ := List.any_eq_true.mp hany
        have hlen := @List.length_eraseP_add_one _ (fun e => e.1 == "__class__") _ _ hx hpx
        intro hba
        rw [← Option.some.inj h] at hba
        have heq : fs.eraseP (fun e => e.1 == "__class__") = fs :=
          (Val.vmap.injEq _ _).mp hba
        rw [heq] at hlen
        omega
      case isFalse => simp at h

/-- C9 counterexample: on a one-element list whose object carries `__class__`
and one business field `k`, the output element is `{"@k": "v"}`, not the
input element with only `__class__` removed — the remaining key is rewritten
by the annotator. -/
theorem C9_counterexample :
    (handle_gold_product_xml_info [.vmap [("__class__", .vstr "c"), ("k", .vstr "v")]]).map
        (fun r => stored_list r.1 "item")
      = some (some [Val.vmap [("@k", Val.vstr "v")]])
    ∧ Val.vmap [("@k", Val.vstr "v")] ≠ Val.vmap [("k", Val.vstr "v")] := by decide

/-- C9 (amended): `handle_gold_product_xml_info` stores under `root → item`
the input list with `__class__` popped from each element (same order, first
failure raising), and the surviving fields then rewritten by
`add_at_prefix_to_keys`; it succeeds exactly when every element is a dict
containing `__class__`. -/
theorem C9_gold_strips_class (data : List Val) :
    (∀ out cleaned, handle_gold_product_xml_info data = some (out, cleaned) →
      stored_list out "item" = some (cleaned.map add_at_prefix_to_keys)
      ∧ List.Forall₂ (fun a b => delete_class a = some b) data cleaned)
    ∧ ((∀ v ∈ data, ∃ fs, v = Val.vmap fs
          ∧ fs.any (fun e => e.1 == "__class__") = true) →
        ∃ out cleaned, handle_gold_product_xml_info data = some (out, cleaned)) := by
  constructor
  · intro out cleaned h
    cases hm : mapMO delete_class data with
    | none => rw [handle_gold_product_xml_info, hm] at h; simp at h
    | some c =>
      rw [handle_gold_product_xml_info, hm] at h
      simp only [Option.map_some', Option.some.injEq, Prod.mk.injEq] at h
      obtain ⟨hout, hcl⟩ := h
      subst hcl
      subst hout
      exact ⟨stored_item_of_wrap _, mapMO_forall2 _ _ _ hm⟩
  · intro hall
    obtain ⟨c, hc⟩ := mapMO_total delete_class data (by
      intro a ha
      obtain ⟨fs, rfl, hany⟩ := hall a ha
      exact ⟨.vmap (fs.eraseP (fun e => e.1 == "__class__")),
        by simp [delete_class, dictPop, hany]⟩)
    exact ⟨.vmap [("root", add_at_prefix_to_keys (.vmap [("item", .vlist c)]))], c,
      by simp [handle_gold_product_xml_info, hc]⟩

/-- Witness for C9 on the one-element example: the stored list is the cleaned
element annotated, the post-state relation holds, and the success case
applies. -/
theorem C9_gold_strips_class_witness :
    (stored_list (Val.vmap [("root",
          add_at_prefix_to_keys (.vmap [("item",
            .vlist [.vmap [("k", .vstr "v")]])]))]) "item"
        = some ([Val.vmap [("k", Val.vstr "v")]].map add_at_prefix_to_keys)
      ∧ List.Forall₂ (fun a b => delete_class a = some b)
          [Val.vmap [("__class__", .vstr "c"), ("k", .vstr "v")]]
          [Val.vmap [("k", .vstr "v")]])
    ∧ ∃ out cleaned,
        handle_gold_product_xml_info [Val.vmap [("__class__", .vstr "c"), ("k", .vstr "v")]]
          = some (out, cleaned) := by
  refine ⟨(C9_gold_strips_class _).1 _ _ (by decide), (C9_gold_strips_class _).2 ?_⟩
  rintro v hv
  simp only [List.mem_singleton] at hv
  subst hv
  exact ⟨[("__class__", .vstr "c"), ("k", .vstr "v")], rfl, by decide⟩

/-- C5 counterexample: `handle_gold_product_xml_info` is not side-effect free
on its input: after the call, the input object has lost its `__class__`
entry (post-state `{"k": "v"}` differs from input
`{"__class__": "c", "k": "v"}`). -/
theorem C5_counterexample :
    (handle_gold_product_xml_info [.vmap [("__class__", .vstr "c"), ("k", .vstr "v")]]).map
        Prod.snd
      = some [Val.vmap [("k", .vstr "v")]]
    ∧ [Val.vmap [("k", .vstr "v")]]
      ≠ [Val.vmap [("__class__", .vstr "c"), ("k", .vstr "v")]] := by decide

/-- C5 (amended): registered handlers are deterministic but not free of side
effects on their inputs: `handle_gold_product_xml_info` pops `__class__` from
every input element in place, so whenever it succeeds on a nonempty input the
post-state of the input differs from the input. -/
theorem C5_gold_mutates_input (data : List Val) (out : Val) (post : List Val)
    (h : handle_gold_product_xml_info data = some (out, post)) :
    List.Forall₂ (fun a b => delete_class a = some b) data post
    ∧ (data ≠ [] → post ≠ data) := by
  have hm : mapMO delete_class data = some post := by
    cases hm : mapMO delete_class data with
    | none => rw [handle_gold_product_xml_info, hm] at h; simp at h
    | some c =>
      rw [handle_gold_product_xml_info, hm] at h
      simp only [Option.map_some', Option.some.injEq, Prod.mk.injEq] at h
      rw [h.2]
  refine ⟨mapMO_forall2 _ _ _ hm, ?_⟩
  intro hne heq
  cases data with
  | nil => exact hne rfl
  | cons a as =>
    have hf := mapMO_forall2 _ _ _ hm
    rw [heq] at hf
    cases hf with
    | cons hab _ => exact delete_class_ne a a hab rfl

/-- Witness for C5 on the one-element example: the post-state relation holds
and the post-state differs from the input. -/
theorem C5_gold_mutates_input_witness :
    List.Forall₂ (fun a b => delete_class a = some b)
        [Val.vmap [("__class__", .vstr "c"), ("k", .vstr "v")]]
        [Val.vmap [("k", .vstr "v")]]
    ∧ [Val.vmap [("k", .vstr "v")]]
      ≠ [Val.vmap [("__class__", .vstr "c"), ("k", .vstr "v")]] := by
  obtain ⟨hf, hg⟩ := C5_gold_mutates_input
    [Val.vmap [("__class__", .vstr "c"), ("k", .vstr "v")]]
    (Val.vmap [("root",
      add_at_prefix_to_keys (.vmap [("item", .vlist [.vmap [("k", .vstr "v")]])]))])
    [Val.vmap [("k", .vstr "v")]] (by decide)
  exact ⟨hf, hg (by decide)⟩

/-!
## A heap of Python objects, for `handle_item_xml_info` (lines 39–52)

`handle_item_xml_info` mutates objects shared with its caller and relies on
object identity: line 50 appends to `cat_obj["item"]` of the *current*
pair's category object, which holds the accumulated group only when repeated
categories are the identical Python object (as the AMF3 decoder's object
reference table produces for back-referenced objects).  Dicts and lists are
therefore modelled as heap cells addressed by `Nat`; scalars are immediate.
-/

inductive HVal where
  | hnull : HVal
  | hbool : Bool → HVal
  | hint : Int → HVal
  | hstr : String → HVal
  | href : Nat → HVal
deriving DecidableEq, Repr

inductive HObj where
  | hdict : List (String × HVal) → HObj
  | hlist : List HVal → HObj
deriving DecidableEq, Repr

abbrev Heap := List (Nat × HObj)

/-- Reference to a mutable object (a dict or list cell). -/
def HVal.isRef : HVal → Bool
  | .href _ => true
  | _ => false

def heapGet (h : Heap) (a : Nat) : Option HObj :=
  (h.find? (fun e => e.1 == a)).map (fun e => e.2)

def heapSet (h : Heap) (a : Nat) (o : HObj) : Heap :=
  h.map (fun e => if e.1 == a then (a, o) else e)

/-- Allocate a fresh cell (address strictly above every existing one). -/
def heapAlloc (h : Heap) (o : HObj) : Heap × Nat :=
  let a := (h.map Prod.fst).foldr Nat.max 0 + 1
  (h ++ [(a, o)], a)

/-- Python dict assignment `d[k] = v` on the entry list: update in place
keeping the insertion position, else append at the end. -/
def entriesSet (fs : List (String × HVal)) (k : String) (v : HVal) :
    List (String × HVal) :=
  if fs.any (fun e => e.1 == k) then fs.map (fun e => if e.1 == k then (k, v) else e)
  else fs ++ [(k, v)]

/-- Lookup `obj[k]` where `obj` is the heap dict at `a`; `none` models the
`TypeError` (not a dict) or `KeyError` (missing key) Python would raise. -/
def dictGetK (h : Heap) (a : Nat) (k : String) : Option HVal :=
  match heapGet h a with
  | some (.hdict fs) => (fs.find? (fun e => e.1 == k)).map (fun e => e.2)
  | _ => none

/-- Assignment `obj[k] = v` where `obj` is the heap dict at `a`. -/
def dictSetK (h : Heap) (a : Nat) (k : String) (v : HVal) : Option Heap :=
  match heapGet h a with
  | some (.hdict fs) => some (heapSet h a (.hdict (entriesSet fs k v)))
  | _ => none

/-- Append `lst.append(v)` where `lst` is the heap list at `a`; `none` models the
`AttributeError` Python raises when the cell is not a list. -/
def listAppend (h : Heap) (a : Nat) (v : HVal) : Option Heap :=
  match heapGet h a with
  | some (.hlist es) => some (heapSet h a (.hlist (es ++ [v])))
  | _ => none

/-- One iteration of the loop of `handle_item_xml_info` (lines 41–50) on the
pair object `objv`, threading the heap and the insertion-ordered `result`
association (category-ID value ↦ address of the stored category object):
read `catObj` and its `ID`; on a first-seen ID set `cat_obj["item"] = []`
(a fresh list cell) and record `cat_obj`; then set `itemObj["CatID"]` and
append the item to `cat_obj["item"]` of the *current* pair's `cat_obj`.
A reference used as a dict key models Python's unhashable-type `TypeError`. -/
def handle_item_step (h : Heap) (res : List (HVal × Nat)) (objv : HVal) :
    Option (Heap × List (HVal × Nat)) := do
  let .href oa := objv | none
  let catv ← dictGetK h oa "catObj"
  let .href ca := catv | none
  let catId ← dictGetK h ca "ID"
  if catId.isRef then none
  else
    let st ←
      if res.any (fun e => e.1 == catId) then some (h, res)
      else
        let al := heapAlloc h (.hlist [])
        (dictSetK al.1 ca "item" (.href al.2)).map (fun h2 => (h2, res ++ [(catId, ca)]))
    let itemv ← dictGetK st.1 oa "itemObj"
    let .href ia := itemv | none
    let h2 ← dictSetK st.1 ia "CatID" catId
    let liv ← dictGetK h2 ca "item"
    let .href la := liv | none
    let h3 ← listAppend h2 la (.href ia)
    some (h3, st.2)

def handle_item_loop (h : Heap) (res : List (HVal × Nat)) :
    List HVal → Option (Heap × List (HVal × Nat))
  | [] => some (h, res)
  | o :: rest => do
    let st ← handle_item_step h res o
    handle_item_loop st.1 st.2 rest

/-- Resolve each field value of a dict with the one-value reader `f`. -/
def resolveFieldsAux (f : HVal → Option Val) : List (String × HVal) → Option (List (String × Val))
  | [] => some []
  | (k, v) :: rest =>
    match f v, resolveFieldsAux f rest with
    | some v', some rest' => some ((k, v') :: rest')
    | _, _ => none

/-- Resolve each element of a list with the one-value reader `f`. -/
def resolveElemsAux (f : HVal → Option Val) : List HVal → Option (List Val)
  | [] => some []
  | v :: rest =>
    match f v, resolveElemsAux f rest with
    | some v', some rest' => some (v' :: rest')
    | _, _ => none

/-- Read the value `v` out of the heap as a pure tree; `fuel` bounds the
dereferencing depth (the decoded configuration data is acyclic, so enough
fuel exists; scalars cost no fuel). -/
def resolveHV (h : Heap) : Nat → HVal → Option Val
  | _, .hnull => some .vnull
  | _, .hbool b => some (.vbool b)
  | _, .hint n => some (.vint n)
  | _, .hstr s => some (.vstr s)
  | 0, .href _ => none
  | fuel + 1, .href a =>
    match heapGet h a with
    | some (.hdict fs) => (resolveFieldsAux (resolveHV h fuel) fs).map .vmap
    | some (.hlist es) => (resolveElemsAux (resolveHV h fuel) es).map .vlist
    | none => none

/-- Resolve a dict's fields at the given dereferencing fuel. -/
def resolveFields (h : Heap) (fuel : Nat) (fs : List (String × HVal)) :
    Option (List (String × Val)) :=
  resolveFieldsAux (resolveHV h fuel) fs

/-- Resolve a list's elements at the given dereferencing fuel. -/
def resolveElems (h : Heap) (fuel : Nat) (es : List HVal) : Option (List Val) :=
  resolveElemsAux (resolveHV h fuel) es

/-- Lines 39–52, `handle_item_xml_info`, over the heap: run the grouping
loop, then return
`{"root": add_at_prefix_to_keys({"items": list(result.values())})}`, reading
the accumulated category objects out of the final heap. -/
def handle_item_xml_info (h : Heap) (data : List HVal) (fuel : Nat) : Option Val := do
  let st ← handle_item_loop h [] data
  let groups ← resolveElems st.1 fuel (st.2.map (fun e => .href e.2))
  some (.vmap [("root", add_at_prefix_to_keys (.vmap [("items", .vlist groups)]))])

/-- The three-pair example of spec §8 taken literally: every pair object,
category object and item object is its own dict; the two category-1 dicts
are equal but not identical. -/
def itemExampleHeapDistinct : Heap :=
  [ (1, .hdict [("catObj", .href 2), ("itemObj", .href 3)]),
    (2, .hdict [("ID", .hint 1)]),
    (3, .hdict [("name", .hstr "sword")]),
    (4, .hdict [("catObj", .href 5), ("itemObj", .href 6)]),
    (5, .hdict [("ID", .hint 1)]),
    (6, .hdict [("name", .hstr "shield")]),
    (7, .hdict [("catObj", .href 8), ("itemObj", .href 9)]),
    (8, .hdict [("ID", .hint 2)]),
    (9, .hdict [("name", .hstr "potion")]) ]

/-- The same example with the two category-1 pairs sharing one identical
category object, as an AMF3 object back-reference yields. -/
def itemExampleHeapAliased : Heap :=
  [ (1, .hdict [("catObj", .href 2), ("itemObj", .href 3)]),
    (2, .hdict [("ID", .hint 1)]),
    (3, .hdict [("name", .hstr "sword")]),
    (4, .hdict [("catObj", .href 2), ("itemObj", .href 6)]),
    (6, .hdict [("name", .hstr "shield")]),
    (7, .hdict [("catObj", .href 8), ("itemObj", .href 9)]),
    (8, .hdict [("ID", .hint 2)]),
    (9, .hdict [("name", .hstr "potion")]) ]

/-- The pair objects of the example, in order. -/
def itemExampleDataDistinct : List HVal := [.href 1, .href 4, .href 7]

/-- The pair objects of the aliased example, in order. -/
def itemExampleDataAliased : List HVal := [.href 1, .href 4, .href 7]

/-- C2 counterexample: on the spec §8 example taken literally (each pair
carrying its own category dict), the handler raises instead of grouping: the
second category-1 pair appends to its *own* category object's `item` entry
(line 50), which was never created because the ID was already seen, so the
lookup `cat_obj["item"]` raises `KeyError` and no output is produced. -/
theorem C2_counterexample :
    handle_item_xml_info itemExampleHeapDistinct itemExampleDataDistinct 100 = none := by
  decide

/-- C2 (amended): when repeated categories are the identical shared object —
as the AMF3 decoder's object reference table produces, and with category
objects initially lacking an `item` entry — the handler groups as claimed:
on the spec §8 example the output has exactly two category groups in
first-seen order, category 1 holding `sword` then `shield` each with
`CatID 1`, category 2 holding `potion` with `CatID 2` (keys annotated by
`add_at_prefix_to_keys`, list-valued `items`/`item` keys bare). -/
theorem C2_grouping_on_aliased_example :
    handle_item_xml_info itemExampleHeapAliased itemExampleDataAliased 100
      = some (.vmap [("root", .vmap [("items", .vlist
          [ .vmap [("@ID", .vint 1), ("item", .vlist
              [ .vmap [("@name", .vstr "sword"), ("@CatID", .vint 1)],
                .vmap [("@name", .vstr "shield"), ("@CatID", .vint 1)] ])],
            .vmap [("@ID", .vint 2), ("item", .vlist
              [ .vmap [("@name", .vstr "potion"), ("@CatID", .vint 2)] ])] ])])]) := by
  decide

/-!
## Segment routing in `Flash.get_configs` (lines 157–177)
-/

mutual

/-- Embed a pure tree into the heap, every dict and list a fresh cell (the
AMF3 reader's back-references are not recoverable from a pure tree, so this
value-level bridge gives each container its own identity). -/
def buildHV : Heap → Val → Heap × HVal
  | h, .vnull => (h, .hnull)
  | h, .vbool b => (h, .hbool b)
  | h, .vint n => (h, .hint n)
  | h, .vstr s => (h, .hstr s)
  | h, .vlist l =>
    let hes := buildHList h l
    let ha := heapAlloc hes.1 (.hlist hes.2)
    (ha.1, .href ha.2)
  | h, .vmap m =>
    let hfs := buildHFields h m
    let ha := heapAlloc hfs.1 (.hdict hfs.2)
    (ha.1, .href ha.2)

def buildHList : Heap → List Val → Heap × List HVal
  | h, [] => (h, [])
  | h, v :: vs =>
    let hv := buildHV h v
    let hrest := buildHList hv.1 vs
    (hrest.1, hv.2 :: hrest.2)

def buildHFields : Heap → List (String × Val) → Heap × List (String × HVal)
  | h, [] => (h, [])
  | h, (k, v) :: rest =>
    let hv := buildHV h v
    let hrest := buildHFields hv.1 rest
    (hrest.1, (k, hv.2) :: hrest.2)

end

/-- Generous read-out fuel for an acyclic heap: more than the total number
of cells and immediate entries. -/
def heapFuel (h : Heap) : Nat :=
  h.foldr (fun e acc => acc + 2 +
    (match e.2 with
     | .hdict fs => fs.length
     | .hlist es => es.length)) 2

/-- The function `handle_item_xml_info` as a handler-table entry on a decoded pure tree:
the tree is laid out on a fresh heap (each object its own cell — see
`buildHV`) and the heap handler is run with ample read-out fuel; `none`
models a raised exception, also for a non-list argument (Python would raise
on `obj["catObj"]` while iterating a dict's keys or fail to iterate a
scalar). -/
def handle_item_on_val (decoded : Val) : Option Val :=
  match decoded with
  | .vlist data =>
    let b := buildHList [] data
    handle_item_xml_info b.1 b.2 (2 * (heapFuel b.1 + data.length) + 16)
  | _ => none

/-- The function `handle_gold_product_xml_info` as a handler-table entry on a decoded
pure tree: the returned tree only (the post-state of the input matters to
the purity claim, not to routing); `none` for a non-list argument. -/
def handle_gold_on_val (decoded : Val) : Option Val :=
  match decoded with
  | .vlist data => (handle_gold_product_xml_info data).map Prod.fst
  | _ => none

/-- The function `handle_skill_xml_info` as a handler-table entry: total, since its body
only wraps and annotates. -/
def handle_skill_on_val (decoded : Val) : Option Val :=
  some (handle_skill_xml_info decoded)

/-- Lines 67–71, `AMF3_DATA_HANDLERS`: the registered per-key handlers. -/
def AMF3_DATA_HANDLERS (key : String) : Option (Val → Option Val) :=
  if key = "com.robot.core.config.xml.ItemXMLInfo_xmlClass" then some handle_item_on_val
  else if key = "com.robot.core.config.xml.GoldProductXMLInfo_xmlClass" then
    some handle_gold_on_val
  else if key = "com.robot.core.config.xml.SkillXMLInfo_xmlClass" then some handle_skill_on_val
  else none

/-- What line 177 writes for one segment: either the segment's bytes
verbatim, or the UTF-8 bytes of `xmltodict.unparse` applied to a tree.
`xmltodict` is an external library; which tree is handed to it is what the
embedding records. -/
inductive Written where
  | raw : List Nat → Written
  | xml : Val → Written
deriving DecidableEq, Repr

/-- Lines 164–172 for one extracted segment `(key, value)`: when the first
two bytes are `0x78 0xDA` the segment is decompressed, AMF3-decoded, run
through the registered handler if any, and the resulting tree serialized;
otherwise the bytes are written verbatim.  `decoded` stands for
`AMF3Reader(zlib.decompress(value)).read_object()` — `zlib` and the AMF3
reader (in `_swf_handle`, outside this tree) determine it from `value`, so
the decoded tree is a parameter here.  `none` models a raised exception. -/
def get_configs_segment (decoded : Val) (key : String) (value : List Nat) : Option Written :=
  if value.take 2 = [0x78, 0xDA] then
    match AMF3_DATA_HANDLERS key with
    | some handler => (handler decoded).map .xml
    | none => some (.xml decoded)
  else some (.raw value)

/-- C10: a segment's bytes are routed into the decompress-and-decode path
(the written output is a serialized tree, or an exception escapes) exactly
when its first two bytes are `0x78 0xDA`; any other segment — whatever its
other bytes — is written verbatim and never decoded. -/
theorem C10_zlib_magic_routing (decoded : Val) (key : String) (value : List Nat) :
    (((∃ t, get_configs_segment decoded key value = some (.xml t))
        ∨ get_configs_segment decoded key value = none)
      ↔ value.take 2 = [0x78, 0xDA])
    ∧ (value.take 2 ≠ [0x78, 0xDA] →
        get_configs_segment decoded key value = some (.raw value)) := by
  by_cases hm : value.take 2 = [0x78, 0xDA]
  · refine ⟨⟨fun _ => hm, fun _ => ?_⟩, fun hn => absurd hm hn⟩
    rw [get_configs_segment, if_pos hm]
    cases hh : AMF3_DATA_HANDLERS key with
    | none => simp only [hh]; exact .inl ⟨decoded, rfl⟩
    | some handler =>
      simp only [hh]
      cases ht : handler decoded with
      | none => simp [ht]
      | some t => exact .inl ⟨t, by simp [ht]⟩
  · have hraw : get_configs_segment decoded key value = some (.raw value) := by
      rw [get_configs_segment, if_neg hm]
    refine ⟨⟨fun hd => ?_, fun h => absurd h hm⟩, fun _ => hraw⟩
    rcases hd with ⟨t, ht⟩ | hn
    · rw [hraw] at ht; exact absurd (Option.some.inj ht) (by simp)
    · rw [hraw] at hn; exact absurd hn (by simp)

/-- Witness for C10: the two-byte header `0x78 0xDA` routes into decoding
(here: an unregistered key, so the decoded tree itself is serialized), while
`0x78 0x9C` — a valid zlib header with a different second byte — is written
verbatim. -/
theorem C10_zlib_magic_routing_witness :
    ((∃ t, get_configs_segment Val.vnull "someKey" [0x78, 0xDA, 0x01]
        = some (.xml t))
      ∨ get_configs_segment Val.vnull "someKey" [0x78, 0xDA, 0x01] = none)
    ∧ get_configs_segment Val.vnull "someKey" [0x78, 0x9C, 0x01]
        = some (.raw [0x78, 0x9C, 0x01]) := by
  exact ⟨(C10_zlib_magic_routing Val.vnull "someKey" [0x78, 0xDA, 0x01]).1.mpr (by decide),
    (C10_zlib_magic_routing Val.vnull "someKey" [0x78, 0x9C, 0x01]).2 (by decide)⟩

/-- C7 counterexample: a decoded segment whose key has no registered handler
is serialized as decoded, without annotation — the written tree keeps the
bare key `k`, which the Key Annotator would have rewritten to `@k`, so the
written tree is not an output of the Key Annotator on this data. -/
theorem C7_counterexample :
    get_configs_segment (.vmap [("k", .vstr "v")]) "com.robot.core.other" [0x78, 0xDA]
      = some (.xml (.vmap [("k", .vstr "v")]))
    ∧ add_at_prefix_to_keys (.vmap [("k", .vstr "v")]) ≠ .vmap [("k", .vstr "v")] := by
  decide

/-- C7 (amended): a segment not routed through the decoder is written
byte-for-byte unchanged; a decoded segment whose key has a registered
handler is written as the serialization of the handler's output (which
applies the Key Annotator) — e.g. for the skill key the wrapped, annotated
tree; a decoded segment with no registered handler is serialized as decoded,
with no annotation applied. -/
theorem C7_segment_writing (decoded : Val) (key : String) (value : List Nat) :
    (value.take 2 ≠ [0x78, 0xDA] →
      get_configs_segment decoded key value = some (.raw value))
    ∧ (value.take 2 = [0x78, 0xDA] → AMF3_DATA_HANDLERS key = none →
        get_configs_segment decoded key value = some (.xml decoded))
    ∧ (value.take 2 = [0x78, 0xDA] →
        get_configs_segment decoded "com.robot.core.config.xml.SkillXMLInfo_xmlClass" value
          = some (.xml (handle_skill_xml_info decoded))) := by
  refine ⟨fun hn => by rw [get_configs_segment, if_neg hn], fun hm hnone => ?_, fun hm => ?_⟩
  · rw [get_configs_segment, if_pos hm, hnone]
  · rw [get_configs_segment, if_pos hm]
    have hskill : AMF3_DATA_HANDLERS "com.robot.core.config.xml.SkillXMLInfo_xmlClass"
        = some handle_skill_on_val := by
      simp [AMF3_DATA_HANDLERS]
    rw [hskill]
    rfl

/-- Witness for C7: verbatim write for a non-magic segment, unannotated
serialization for an unregistered key, annotated wrapped serialization for
the skill key, each on a concrete segment. -/
theorem C7_segment_writing_witness :
    get_configs_segment Val.vnull "k" [0x01, 0x02] = some (.raw [0x01, 0x02])
    ∧ get_configs_segment (.vmap [("a", .vint 1)]) "other" [0x78, 0xDA]
        = some (.xml (.vmap [("a", .vint 1)]))
    ∧ get_configs_segment (.vlist [.vmap [("a", .vint 1)]])
        "com.robot.core.config.xml.SkillXMLInfo_xmlClass" [0x78, 0xDA]
        = some (.xml (handle_skill_xml_info (.vlist [.vmap [("a", .vint 1)]]))) := by
  exact ⟨(C7_segment_writing Val.vnull "k" [0x01, 0x02]).1 (by decide),
    (C7_segment_writing (.vmap [("a", .vint 1)]) "other" [0x78, 0xDA]).2.1 (by decide)
      (by simp [AMF3_DATA_HANDLERS]),
    (C7_segment_writing (.vlist [.vmap [("a", .vint 1)]]) "x" [0x78, 0xDA]).2.2 (by decide)⟩

/-!
## The container decompressor — `Flash.extract_configs_from_swf` (lines 144–148)
-/

/-- Lines 144–148: `zlib.decompress(swf[7:])` then the `_swf_handle`
extraction.  `zlib.decompress`, `extract_swf_data` and `extract_binary_data`
(the latter two live in `_swf_handle`, outside this tree) are composed into
the parameter `pipeline`; the function under test contributes exactly the
7-byte header skip (3 signature bytes + 4 declared-length bytes). -/
def extract_configs_from_swf (pipeline : List Nat → List (String × List Nat))
    (swf : List Nat) : List (String × List Nat) :=
  pipeline (swf.drop 7)

/-- C8: the container decompressor skips exactly the fixed 7-byte header and
feeds every remaining byte to the decompression pipeline; the 4 declared-
length bytes (offsets 3–6) are never validated or used: two containers that
agree outside those 4 bytes extract identically. -/
theorem C8_header_skip (pipeline : List Nat → List (String × List Nat))
    (swf1 swf2 : List Nat) :
    extract_configs_from_swf pipeline swf1 = pipeline (swf1.drop 7)
    ∧ (swf1.take 3 = swf2.take 3 → swf1.drop 7 = swf2.drop 7 →
        extract_configs_from_swf pipeline swf1 = extract_configs_from_swf pipeline swf2) := by
  exact ⟨rfl, fun _ hdrop => by rw [extract_configs_from_swf, extract_configs_from_swf, hdrop]⟩

/-- Witness for C8: two containers differing exactly in the 4 declared-length
bytes extract identically under a concrete pipeline. -/
theorem C8_header_skip_witness :
    extract_configs_from_swf (fun rest => [("seg", rest)]) [67, 87, 83, 0, 0, 0, 0, 9, 9]
      = extract_configs_from_swf (fun rest => [("seg", rest)]) [67, 87, 83, 5, 6, 7, 8, 9, 9] := by
  exact (C8_header_skip (fun rest => [("seg", rest)])
    [67, 87, 83, 0, 0, 0, 0, 9, 9] [67, 87, 83, 5, 6, 7, 8, 9, 9]).2 (by decide) (by decide)

/-!
## Version persistence in `main` (lines 127–140, 297–305)

The stored `.version` file is the state (`none` models a missing file, i.e.
`FileNotFoundError` in `get_local_version`).  The remote version fetched for
the platform and the success of `get_configs` are oracles: the network and
the SWF parsing are outside the embedding.  Exceptions propagate with the
store as it was (a raised `get_configs` leaves the file untouched and aborts
the run for that platform).
-/

/-- Lines 135–140, `check_update`: `True` when no local version file exists,
otherwise whether the stripped local version differs from the remote one. -/
def check_update (localVersion : Option String) (remote : String) : Bool :=
  match localVersion with
  | none => true
  | some lv => lv != remote

/-- Line 304, `platform.get_configs()` as seen from `main`: succeeds or
raises, per the oracle.  A raised exception carries the store unchanged. -/
def get_configs_op (configsOk : Bool) (stored : Option String) :
    EStateM.Result Unit (Option String) Unit :=
  if configsOk then .ok () stored else .error () stored

/-- Lines 132–133, `save_remote_version`: write the fetched remote version
to the version file. -/
def save_remote_version (remote : String) (_stored : Option String) :
    EStateM.Result Unit (Option String) Unit :=
  .ok () (some remote)

/-- Lines 297–305, one iteration of the platform loop of `main`: fetch the
remote version, skip the platform when `check_update` is false, otherwise
run `get_configs` and only then `save_remote_version` (sequencing written
out: an exception escaping `get_configs` skips the save and aborts). -/
def update_platform (remote : String) (configsOk : Bool) (stored : Option String) :
    EStateM.Result Unit (Option String) Unit :=
  if check_update stored remote then
    match get_configs_op configsOk stored with
    | .ok _ s1 => save_remote_version remote s1
    | .error e s1 => .error e s1
  else .ok () stored

/-- The version file after a run, whether it ended normally or by an
escaping exception. -/
def resultState : EStateM.Result Unit (Option String) Unit → Option String
  | .ok _ s => s
  | .error _ s => s

/-- C6: the fetched remote version is persisted only after `get_configs`
completes without raising: when `get_configs` fails the stored local version
is unchanged (whatever it was, including absent) and the run for that
platform ends in an error, so the platform is not recorded as updated; when
`get_configs` succeeds on a platform needing an update, the remote version
is stored. -/
theorem C6_version_saved_only_after_configs (remote : String) (stored : Option String) :
    resultState (update_platform remote false stored) = stored
    ∧ (check_update stored remote = true →
        update_platform remote false stored = .error () stored
        ∧ update_platform remote true stored = .ok () (some remote)) := by
  cases hcu : check_update stored remote with
  | false =>
    refine ⟨?_, fun h => absurd h (by simp)⟩
    rw [update_platform, hcu]
    rfl
  | true =>
    refine ⟨?_, fun _ => ⟨?_, ?_⟩⟩ <;> rw [update_platform, hcu] <;> rfl

/-- Witness for C6 at a concrete platform state: local version `"1.0"`,
remote `"2.0"`: a failing extraction leaves `"1.0"` stored and errors, a
successful one stores `"2.0"`. -/
theorem C6_version_saved_only_after_configs_witness :
    resultState (update_platform "2.0" false (some "1.0")) = some "1.0"
    ∧ update_platform "2.0" false (some "1.0") = .error () (some "1.0")
    ∧ update_platform "2.0" true (some "1.0") = .ok () (some "2.0") := by
  obtain ⟨h1, h2⟩ := C6_version_saved_only_after_configs "2.0" (some "1.0")
  obtain ⟨h3, h4⟩ := h2 (by decide)
  exact ⟨h1, h3, h4⟩

/-!
## A general grouping theorem for `handle_item_xml_info` on aliased inputs

The theorem `C2_grouping_aliased` below proves the amended grouping claim
for every input in which pairs of one category share the identical category
object (as the AMF3 decoder's object back-references produce): the loop
yields one group per distinct category ID in first-seen order, each group's
`item` list holds that category's items in encounter order, and every item
has gained a `CatID` field equal to its category's ID.
-/

theorem find?_append_some {p : α → Bool} :
    ∀ {l1 : List α} (l2 : List α) {x : α},
      l1.find? p = some x → (l1 ++ l2).find? p = some x := by
  intro l1
  induction l1 with
  | nil => intro l2 x h; simp [List.find?] at h
  | cons a t ih =>
    intro l2 x h
    cases hpa : p a with
    | true =>
      rw [List.find?_cons_of_pos _ hpa] at h
      rw [List.cons_append, List.find?_cons_of_pos _ hpa]
      exact h
    | false =>
      rw [List.find?_cons_of_neg _ (by simp [hpa])] at h
      rw [List.cons_append, List.find?_cons_of_neg _ (by simp [hpa])]
      exact ih l2 h

theorem find?_append_of_none {p : α → Bool} :
    ∀ {l1 : List α} (l2 : List α),
      l1.find? p = none → (l1 ++ l2).find? p = l2.find? p := by
  intro l1
  induction l1 with
  | nil => intro l2 _; rfl
  | cons a t ih =>
    intro l2 h
    cases hpa : p a with
    | true => rw [List.find?_cons_of_pos _ hpa] at h; exact absurd h (by simp)
    | false =>
      rw [List.find?_cons_of_neg _ (by simp [hpa])] at h
      rw [List.cons_append, List.find?_cons_of_neg _ (by simp [hpa])]
      exact ih l2 h

theorem heapGet_mem {h : Heap} {a : Nat} {o : HObj} (hg : heapGet h a = some o) :
    a ∈ h.map Prod.fst := by
  induction h with
  | nil => exact absurd hg (by simp [heapGet, List.find?])
  | cons e t ih =>
    by_cases hea : e.1 = a
    · simp [hea]
    · have : heapGet t a = some o := by
        rw [heapGet, List.find?_cons_of_neg _ (by simpa using hea)] at hg
        exact hg
      simp [ih this]

theorem heapSet_map_fst (h : Heap) (a : Nat) (o : HObj) :
    (heapSet h a o).map Prod.fst = h.map Prod.fst := by
  induction h with
  | nil => rfl
  | cons e t ih =>
    by_cases hea : e.1 = a
    · simp [heapSet, hea] at ih ⊢
      exact ih
    · simp [heapSet, hea] at ih ⊢
      simpa using ih

theorem heapGet_set_same {h : Heap} {a : Nat} {o0 : HObj} (hg : heapGet h a = some o0)
    (o : HObj) : heapGet (heapSet h a o) a = some o := by
  induction h with
  | nil => exact absurd hg (by simp [heapGet, List.find?])
  | cons e t ih =>
    by_cases hea : e.1 = a
    · simp only [heapSet, List.map]
      rw [if_pos (by simpa using hea)]
      rw [heapGet, List.find?_cons_of_pos _ (by simp)]
      rfl
    · have ht : heapGet t a = some o0 := by
        rw [heapGet, List.find?_cons_of_neg _ (by simpa using hea)] at hg
        exact hg
      have := ih ht
      simp only [heapSet, List.map] at this ⊢
      rw [if_neg (by simpa using hea)]
      rw [heapGet, List.find?_cons_of_neg _ (by simpa using hea)]
      exact this

theorem heapGet_set_other {h : Heap} {a b : Nat} (hne : b ≠ a) (o : HObj) :
    heapGet (heapSet h a o) b = heapGet h b := by
  induction h with
  | nil => rfl
  | cons e t ih =>
    by_cases hea : e.1 = a
    · simp only [heapSet, List.map]
      rw [if_pos (by simpa using hea)]
      rw [heapGet, List.find?_cons_of_neg _ (by simpa using (Ne.symm hne))]
      rw [heapGet, List.find?_cons_of_neg _ (by simp [hea]; exact Ne.symm hne)]
      exact ih
    · simp only [heapSet, List.map]
      rw [if_neg (by simpa using hea)]
      by_cases heb : e.1 = b
      · rw [heapGet, List.find?_cons_of_pos _ (by simpa using heb)]
        rw [heapGet, List.find?_cons_of_pos _ (by simpa using heb)]
      · rw [heapGet, List.find?_cons_of_neg _ (by simpa using heb)]
        rw [heapGet, List.find?_cons_of_neg _ (by simpa using heb)]
        exact ih

theorem heapGet_append_left {h : Heap} {a : Nat} {o : HObj} (hg : heapGet h a = some o)
    (l : Heap) : heapGet (h ++ l) a = some o := by
  rw [heapGet] at hg
  cases hf : h.find? (fun e => e.1 == a) with
  | none => rw [hf] at hg; simp at hg
  | some e =>
    rw [hf] at hg
    simp only [Option.map_some', Option.some.injEq] at hg
    rw [heapGet, find?_append_some l hf]
    simp [hg]

theorem heapGet_append_fresh {h : Heap} {a : Nat} (hfresh : a ∉ h.map Prod.fst) (o : HObj) :
    heapGet (h ++ [(a, o)]) a = some o := by
  have hnone : h.find? (fun e => e.1 == a) = none := by
    rw [List.find?_eq_none]
    intro e he hb
    exact hfresh (by simp at hb; exact hb ▸ List.mem_map_of_mem Prod.fst he)
  rw [heapGet, find?_append_of_none _ hnone]
  simp [List.find?]

theorem le_foldr_max (l : List Nat) : ∀ x ∈ l, x ≤ l.foldr Nat.max 0 := by
  induction l with
  | nil => intro x hx; simp at hx
  | cons y t ih =>
    intro x hx
    simp only [List.foldr]
    rcases List.mem_cons.mp hx with h | h
    · exact h ▸ Nat.le_max_left _ _
    · exact Nat.le_trans (ih x h) (Nat.le_max_right _ _)

theorem heapAlloc_snd_fresh (h : Heap) (o : HObj) : (heapAlloc h o).2 ∉ h.map Prod.fst := by
  rw [heapAlloc]
  intro hmem
  have := le_foldr_max (h.map Prod.fst) _ hmem
  omega

theorem heapAlloc_fst (h : Heap) (o : HObj) :
    (heapAlloc h o).1 = h ++ [((heapAlloc h o).2, o)] := rfl

theorem mem_entriesSet_self (fs : List (String × HVal)) (k : String) (v : HVal) :
    (k, v) ∈ entriesSet fs k v := by
  rw [entriesSet]
  by_cases hany : fs.any (fun e => e.1 == k) = true
  · rw [if_pos hany]
    obtain ⟨e, he, hpe⟩ := List.any_eq_true.mp hany
    have : (if e.1 == k then (k, v) else e) ∈ fs.map (fun e => if e.1 == k then (k, v) else e) :=
      List.mem_map_of_mem _ he
    rwa [if_pos hpe] at this
  · rw [if_neg hany]
    simp

theorem entriesSet_scalar {fs : List (String × HVal)} {v : HVal}
    (hfs : ∀ e ∈ fs, (e.2 : HVal).isRef = false) (hv : v.isRef = false) (k : String) :
    ∀ e ∈ entriesSet fs k v, (e.2 : HVal).isRef = false := by
  intro e he
  rw [entriesSet] at he
  by_cases hany : fs.any (fun x => x.1 == k) = true
  · rw [if_pos hany] at he
    obtain ⟨x, hx, hxe⟩ := List.mem_map.mp he
    by_cases hxk : x.1 == k
    · rw [if_pos hxk] at hxe
      exact hxe ▸ hv
    · rw [if_neg hxk] at hxe
      exact hxe ▸ hfs x hx
  · rw [if_neg hany] at he
    rcases List.mem_append.mp he with h1 | h2
    · exact hfs e h1
    · simp at h2
      rw [h2]
      exact hv

/-- One pair object of the item-configuration input: the addresses of the
pair dict and the item dict, the category-ID value, and the item dict's
initial fields.  The category object is shared by ID — see `ItemSetup`. -/
structure ItemPair where
  pa : Nat
  ia : Nat
  idv : HVal
  ifs : List (String × HVal)
deriving DecidableEq, Repr

/-- An input configuration for `handle_item_xml_info`: the ordered pair
objects, the address `cA id` and initial fields `cF id` of the category
object shared by every pair of category `id` (this sharing is the aliasing
the AMF3 back-references produce), and the initial heap. -/
structure ItemSetup where
  ps : List ItemPair
  cA : HVal → Nat
  cF : HVal → List (String × HVal)
  h0 : Heap

/-- Every address an `ItemSetup` mentions. -/
def ItemSetup.addrs (P : ItemSetup) : List Nat :=
  P.ps.map (fun p => p.pa) ++ P.ps.map (fun p => p.ia) ++ P.ps.map (fun p => P.cA p.idv)

/-- Well-formedness of an `ItemSetup`: the heap holds the described pair,
category and item dicts; category objects carry a scalar `ID` and no `item`
entry; category and item fields are scalar-valued; item addresses are
distinct; the three address classes are disjoint; distinct IDs have distinct
category objects. -/
def ItemSetup.WF (P : ItemSetup) : Prop :=
  (∀ p ∈ P.ps, heapGet P.h0 p.pa
      = some (.hdict [("catObj", .href (P.cA p.idv)), ("itemObj", .href p.ia)]))
  ∧ (∀ p ∈ P.ps, heapGet P.h0 (P.cA p.idv) = some (.hdict (P.cF p.idv)))
  ∧ (∀ p ∈ P.ps, ((P.cF p.idv).find? (fun e => e.1 == "ID")).map (fun e => e.2)
      = some p.idv)
  ∧ (∀ p ∈ P.ps, ∀ e ∈ P.cF p.idv, ¬ (e.1 : String) = "item")
  ∧ (∀ p ∈ P.ps, heapGet P.h0 p.ia = some (.hdict p.ifs))
  ∧ (∀ p ∈ P.ps, (p.idv).isRef = false)
  ∧ (∀ p ∈ P.ps, ∀ e ∈ P.cF p.idv, (e.2 : HVal).isRef = false)
  ∧ (∀ p ∈ P.ps, ∀ e ∈ p.ifs, (e.2 : HVal).isRef = false)
  ∧ (P.ps.map (fun p => p.ia)).Nodup
  ∧ (∀ p ∈ P.ps, ∀ q ∈ P.ps, p.pa ≠ P.cA q.idv ∧ p.pa ≠ q.ia ∧ p.ia ≠ P.cA q.idv)
  ∧ (∀ p ∈ P.ps, ∀ q ∈ P.ps, p.idv ≠ q.idv → P.cA p.idv ≠ P.cA q.idv)

/-- The distinct category-ID values of a pair list in first-seen order
(mirrors the insertion order of the Python `result` dict). -/
def firstSeenList (l : List ItemPair) : List HVal :=
  l.foldl (fun acc p => if acc.any (fun x => x == p.idv) then acc else acc ++ [p.idv]) []

/-- The pairs of one category, in encounter order. -/
def itemsOf (id : HVal) (l : List ItemPair) : List ItemPair :=
  l.filter (fun p => p.idv == id)

/-- The pure tree of a scalar heap value (immaterial on references; only
applied under a scalar hypothesis). -/
def scalarVal : HVal → Val
  | .hnull => .vnull
  | .hbool b => .vbool b
  | .hint n => .vint n
  | .hstr s => .vstr s
  | .href _ => .vnull

/-- The pure tree the run leaves for one category: its original scalar
fields followed by the `item` list holding, in encounter order, each of the
category's item dicts with `CatID` set to the category ID. -/
def groupTree (P : ItemSetup) (id : HVal) : Val :=
  .vmap ((P.cF id).map (fun e => (e.1, scalarVal e.2))
    ++ [("item", .vlist ((itemsOf id P.ps).map (fun q =>
        .vmap ((entriesSet q.ifs "CatID" q.idv).map (fun e => (e.1, scalarVal e.2))))))])

theorem firstSeenList_snoc (done : List ItemPair) (p : ItemPair) :
    firstSeenList (done ++ [p])
      = if (firstSeenList done).any (fun x => x == p.idv) then firstSeenList done
        else firstSeenList done ++ [p.idv] := by
  rw [firstSeenList, firstSeenList, List.foldl_append]
  rfl

theorem any_beq_iff_mem {l : List HVal} {x : HVal} :
    l.any (fun y => y == x) = true ↔ x ∈ l := by
  rw [List.any_eq_true]
  constructor
  · rintro ⟨y, hy, hyx⟩
    exact (beq_iff_eq.mp hyx) ▸ hy
  · intro hx
    exact ⟨x, hx, by simp⟩

theorem itemsOf_snoc (id : HVal) (done : List ItemPair) (p : ItemPair) :
    itemsOf id (done ++ [p])
      = itemsOf id done ++ (if p.idv == id then [p] else []) := by
  rw [itemsOf, itemsOf, List.filter_append]
  cases hpi : (p.idv == id) <;> simp [List.filter, hpi]

theorem mem_foldl_seen :
    ∀ (l : List ItemPair) (acc : List HVal) (id : HVal),
      (id ∈ l.foldl
          (fun acc p => if acc.any (fun x => x == p.idv) then acc else acc ++ [p.idv]) acc
        ↔ id ∈ acc ∨ ∃ p ∈ l, p.idv = id) := by
  intro l
  induction l with
  | nil => intro acc id; simp
  | cons p t ih =>
    intro acc id
    rw [List.foldl_cons, ih]
    by_cases hseen : acc.any (fun x => x == p.idv) = true
    · rw [if_pos hseen]
      constructor
      · rintro (h | h)
        · exact Or.inl h
        · obtain ⟨q, hq, hqid⟩ := h
          exact Or.inr ⟨q, List.mem_cons_of_mem _ hq, hqid⟩
      · rintro (h | ⟨q, hq, hqid⟩)
        · exact Or.inl h
        · rcases List.mem_cons.mp hq with rfl | hqt
          · exact Or.inl (hqid ▸ any_beq_iff_mem.mp hseen)
          · exact Or.inr ⟨q, hqt, hqid⟩
    · rw [if_neg hseen]
      constructor
      · rintro (h | h)
        · rcases List.mem_append.mp h with h1 | h2
          · exact Or.inl h1
          · simp at h2
            exact Or.inr ⟨p, by simp [h2]⟩
        · obtain ⟨q, hq, hqid⟩ := h
          exact Or.inr ⟨q, List.mem_cons_of_mem _ hq, hqid⟩
      · rintro (h | ⟨q, hq, hqid⟩)
        · exact Or.inl (List.mem_append.mpr (Or.inl h))
        · rcases List.mem_cons.mp hq with rfl | hqt
          · exact Or.inl (List.mem_append.mpr (Or.inr (by simp [hqid])))
          · exact Or.inr ⟨q, hqt, hqid⟩

theorem mem_firstSeenList_iff {l : List ItemPair} {id : HVal} :
    id ∈ firstSeenList l ↔ ∃ p ∈ l, p.idv = id := by
  rw [firstSeenList, mem_foldl_seen]
  simp

theorem foldl_seen_nodup :
    ∀ (l : List ItemPair) (acc : List HVal), acc.Nodup →
      (l.foldl
        (fun acc p => if acc.any (fun x => x == p.idv) then acc else acc ++ [p.idv])
        acc).Nodup := by
  intro l
  induction l with
  | nil => intro acc h; exact h
  | cons p t ih =>
    intro acc hacc
    rw [List.foldl_cons]
    by_cases hseen : acc.any (fun x => x == p.idv) = true
    · rw [if_pos hseen]
      exact ih acc hacc
    · rw [if_neg hseen]
      refine ih _ ?_
      rw [List.nodup_append]
      refine ⟨hacc, List.nodup_singleton _, ?_⟩
      intro x hx hx1
      simp at hx1
      rw [hx1] at hx
      exact hseen (any_beq_iff_mem.mpr hx)

theorem firstSeenList_nodup (l : List ItemPair) : (firstSeenList l).Nodup :=
  foldl_seen_nodup l [] List.nodup_nil

/-- The loop invariant of `handle_item_loop` after the prefix `done` of the
pairs has been processed: `res` lists the first-seen IDs with their shared
category addresses; every seen category object has gained an `item` entry
pointing at a fresh list cell `laf id` holding the refs of its items so far
in encounter order; every processed item dict has gained `CatID`; everything
else (pair cells, unseen categories, unprocessed items) is untouched. -/
structure LoopInv (P : ItemSetup) (laf : HVal → Nat) (done : List ItemPair)
    (h : Heap) (res : List (HVal × Nat)) : Prop where
  res_eq : res = (firstSeenList done).map (fun id => (id, P.cA id))
  dom : ∀ a ∈ P.h0.map Prod.fst, a ∈ h.map Prod.fst
  pair_cells : ∀ p ∈ P.ps, heapGet h p.pa
      = some (.hdict [("catObj", .href (P.cA p.idv)), ("itemObj", .href p.ia)])
  seen_cat : ∀ id ∈ firstSeenList done,
      heapGet h (P.cA id) = some (.hdict (P.cF id ++ [("item", .href (laf id))]))
  seen_list : ∀ id ∈ firstSeenList done,
      heapGet h (laf id) = some (.hlist ((itemsOf id done).map (fun p => .href p.ia)))
  la_fresh : ∀ id ∈ firstSeenList done, laf id ∉ P.addrs
  la_inj : ∀ id1 ∈ firstSeenList done, ∀ id2 ∈ firstSeenList done,
      id1 ≠ id2 → laf id1 ≠ laf id2
  unseen_cat : ∀ p ∈ P.ps, p.idv ∉ firstSeenList done →
      heapGet h (P.cA p.idv) = some (.hdict (P.cF p.idv))
  done_items : ∀ p ∈ done, heapGet h p.ia = some (.hdict (entriesSet p.ifs "CatID" p.idv))
  rest_items : ∀ p ∈ P.ps, p ∉ done → heapGet h p.ia = some (.hdict p.ifs)

theorem addrs_subset_dom (P : ItemSetup) (hwf : P.WF) :
    ∀ a ∈ P.addrs, a ∈ P.h0.map Prod.fst := by
  obtain ⟨w1, w2, _, _, w5, _⟩ := hwf
  intro a ha
  rw [ItemSetup.addrs] at ha
  rcases List.mem_append.mp ha with ha | ha
  · rcases List.mem_append.mp ha with ha | ha
    · obtain ⟨q, hq, rfl⟩ := List.mem_map.mp ha
      exact heapGet_mem (w1 q hq)
    · obtain ⟨q, hq, rfl⟩ := List.mem_map.mp ha
      exact heapGet_mem (w5 q hq)
  · obtain ⟨q, hq, rfl⟩ := List.mem_map.mp ha
    exact heapGet_mem (w2 q hq)

theorem pa_mem_addrs (P : ItemSetup) {p : ItemPair} (hp : p ∈ P.ps) : p.pa ∈ P.addrs := by
  rw [ItemSetup.addrs]
  exact List.mem_append.mpr (Or.inl (List.mem_append.mpr (Or.inl (List.mem_map_of_mem _ hp))))

theorem ia_mem_addrs (P : ItemSetup) {p : ItemPair} (hp : p ∈ P.ps) : p.ia ∈ P.addrs := by
  rw [ItemSetup.addrs]
  exact List.mem_append.mpr (Or.inl (List.mem_append.mpr (Or.inr (List.mem_map_of_mem _ hp))))

theorem ca_mem_addrs (P : ItemSetup) {p : ItemPair} (hp : p ∈ P.ps) :
    P.cA p.idv ∈ P.addrs := by
  rw [ItemSetup.addrs]
  exact List.mem_append.mpr (Or.inr (List.mem_map_of_mem _ hp))

theorem any_map_fst (l : List HVal) (f : HVal → Nat) (x : HVal) :
    ((l.map (fun id => (id, f id))).any (fun e => e.1 == x)) = l.any (fun id => id == x) := by
  induction l with
  | nil => rfl
  | cons a t ih => simp only [List.map, List.any_cons, ih]

theorem dictGetK_of_find {h : Heap} {a : Nat} {fs : List (String × HVal)} {k : String}
    {e : String × HVal} (hg : heapGet h a = some (.hdict fs))
    (hf : fs.find? (fun x => x.1 == k) = some e) : dictGetK h a k = some e.2 := by
  rw [dictGetK, hg]
  show (fs.find? (fun x => x.1 == k)).map (fun x => x.2) = some e.2
  rw [hf]
  rfl

theorem dictSetK_of_get {h : Heap} {a : Nat} {fs : List (String × HVal)}
    (hg : heapGet h a = some (.hdict fs)) (k : String) (v : HVal) :
    dictSetK h a k v = some (heapSet h a (.hdict (entriesSet fs k v))) := by
  rw [dictSetK, hg]

theorem listAppend_of_get {h : Heap} {a : Nat} {es : List HVal}
    (hg : heapGet h a = some (.hlist es)) (v : HVal) :
    listAppend h a v = some (heapSet h a (.hlist (es ++ [v]))) := by
  rw [listAppend, hg]

theorem entriesSet_of_absent {fs : List (String × HVal)} {k : String}
    (hk : ∀ e ∈ fs, ¬ (e.1 : String) = k) (v : HVal) :
    entriesSet fs k v = fs ++ [(k, v)] := by
  rw [entriesSet, if_neg]
  intro hany
  obtain ⟨e, he, hpe⟩ := List.any_eq_true.mp hany
  exact hk e he (by simpa using hpe)

theorem find?_of_absent {fs : List (String × HVal)} {k : String}
    (hk : ∀ e ∈ fs, ¬ (e.1 : String) = k) :
    fs.find? (fun x => x.1 == k) = none := by
  rw [List.find?_eq_none]
  intro e he hpe
  exact hk e he (by simpa using hpe)

theorem handle_item_step_seen (P : ItemSetup) (hwf : P.WF) (laf : HVal → Nat)
    (done : List ItemPair) (p : ItemPair) (hp : p ∈ P.ps) (hpd : p ∉ done)
    (hsub : ∀ q ∈ done, q ∈ P.ps) (h : Heap) (res : List (HVal × Nat))
    (inv : LoopInv P laf done h res) (hseen : p.idv ∈ firstSeenList done) :
    ∃ h', handle_item_step h res (.href p.pa) = some (h', res)
      ∧ LoopInv P laf (done ++ [p]) h' res := by
  obtain ⟨w1, w2, w3, w4, w5, w6, w7, w8, w9, w10, w11⟩ := hwf
  have hca_seen := inv.seen_cat p.idv hseen
  obtain ⟨eID, hfID, hvID⟩ :
      ∃ e, (P.cF p.idv).find? (fun x => x.1 == "ID") = some e ∧ e.2 = p.idv := by
    have hw := w3 p hp
    cases hf : (P.cF p.idv).find? (fun x => x.1 == "ID") with
    | none => rw [hf] at hw; simp at hw
    | some e =>
      rw [hf] at hw
      simp only [Option.map_some', Option.some.injEq] at hw
      exact ⟨e, rfl, hw⟩
  have hcatv : dictGetK h p.pa "catObj" = some (.href (P.cA p.idv)) := by
    rw [dictGetK, inv.pair_cells p hp]
    rfl
  have hcatid : dictGetK h (P.cA p.idv) "ID" = some p.idv := by
    have hd := dictGetK_of_find hca_seen (find?_append_some _ hfID)
    rw [hvID] at hd
    exact hd
  have hres_any : res.any (fun e => e.1 == p.idv) = true := by
    rw [inv.res_eq, any_map_fst]
    exact any_beq_iff_mem.mpr hseen
  have hitemv : dictGetK h p.pa "itemObj" = some (.href p.ia) := by
    rw [dictGetK, inv.pair_cells p hp]
    rfl
  have hia_get : heapGet h p.ia = some (.hdict p.ifs) := inv.rest_items p hp hpd
  have hset_ia : dictSetK h p.ia "CatID" p.idv
      = some (heapSet h p.ia (.hdict (entriesSet p.ifs "CatID" p.idv))) :=
    dictSetK_of_get hia_get _ _
  have hca_ne_ia : P.cA p.idv ≠ p.ia := Ne.symm (w10 p hp p hp).2.2
  have hca_get_h2 :
      heapGet (heapSet h p.ia (.hdict (entriesSet p.ifs "CatID" p.idv))) (P.cA p.idv)
        = some (.hdict (P.cF p.idv ++ [("item", .href (laf p.idv))])) := by
    rw [heapGet_set_other hca_ne_ia]
    exact hca_seen
  have hfind_item :
      (P.cF p.idv ++ [("item", HVal.href (laf p.idv))]).find? (fun x => x.1 == "item")
        = some ("item", HVal.href (laf p.idv)) := by
    rw [find?_append_of_none _ (find?_of_absent (w4 p hp))]
    simp [List.find?]
  have hitem_lookup :
      dictGetK (heapSet h p.ia (.hdict (entriesSet p.ifs "CatID" p.idv))) (P.cA p.idv) "item"
        = some (.href (laf p.idv)) :=
    dictGetK_of_find hca_get_h2 hfind_item
  have hla_ne_ia : laf p.idv ≠ p.ia :=
    fun he => inv.la_fresh p.idv hseen (he ▸ ia_mem_addrs P hp)
  have hla_get_h2 :
      heapGet (heapSet h p.ia (.hdict (entriesSet p.ifs "CatID" p.idv))) (laf p.idv)
        = some (.hlist ((itemsOf p.idv done).map (fun q => .href q.ia))) := by
    rw [heapGet_set_other hla_ne_ia]
    exact inv.seen_list p.idv hseen
  have happend :
      listAppend (heapSet h p.ia (.hdict (entriesSet p.ifs "CatID" p.idv))) (laf p.idv)
          (.href p.ia)
        = some (heapSet (heapSet h p.ia (.hdict (entriesSet p.ifs "CatID" p.idv)))
            (laf p.idv)
            (.hlist ((itemsOf p.idv done).map (fun q => .href q.ia) ++ [.href p.ia]))) :=
    listAppend_of_get hla_get_h2 _
  have hseenlist : firstSeenList (done ++ [p]) = firstSeenList done := by
    rw [firstSeenList_snoc, if_pos (any_beq_iff_mem.mpr hseen)]
  have heval : handle_item_step h res (.href p.pa)
      = some (heapSet (heapSet h p.ia (.hdict (entriesSet p.ifs "CatID" p.idv)))
          (laf p.idv)
          (.hlist ((itemsOf p.idv done).map (fun q => .href q.ia) ++ [.href p.ia])), res) := by
    simp only [handle_item_step, Option.bind_eq_bind, hcatv, Option.some_bind, hcatid,
      w6 p hp, Bool.false_eq_true, if_false, hres_any, if_true, hitemv, hset_ia,
      hitem_lookup, happend]
  refine ⟨_, heval, ?_, ?_, ?_, ?_, ?_, ?_, ?_, ?_, ?_, ?_⟩
  · rw [hseenlist]
    exact inv.res_eq
  · intro a ha
    rw [heapSet_map_fst, heapSet_map_fst]
    exact inv.dom a ha
  · intro q hq
    have h1 : q.pa ≠ laf p.idv :=
      fun he => inv.la_fresh p.idv hseen (he ▸ pa_mem_addrs P hq)
    rw [heapGet_set_other h1, heapGet_set_other (w10 q hq p hp).2.1]
    exact inv.pair_cells q hq
  · intro id hid
    rw [hseenlist] at hid
    obtain ⟨q, hq, hqid⟩ := mem_firstSeenList_iff.mp hid
    have hqs := hsub q hq
    have hca_ne_la : P.cA id ≠ laf p.idv :=
      fun he => inv.la_fresh p.idv hseen (he ▸ (hqid ▸ ca_mem_addrs P hqs))
    have hca_ne_ia2 : P.cA id ≠ p.ia := hqid ▸ Ne.symm (w10 p hp q hqs).2.2
    rw [heapGet_set_other hca_ne_la, heapGet_set_other hca_ne_ia2]
    exact inv.seen_cat id hid
  · intro id hid
    rw [hseenlist] at hid
    by_cases hidp : id = p.idv
    · subst hidp
      rw [heapGet_set_same hla_get_h2]
      rw [itemsOf_snoc, if_pos (by simp)]
      simp [List.map_append]
    · have hla_ne : laf id ≠ laf p.idv := inv.la_inj id hid p.idv hseen hidp
      have hla_ne_ia2 : laf id ≠ p.ia :=
        fun he => inv.la_fresh id hid (he ▸ ia_mem_addrs P hp)
      rw [heapGet_set_other hla_ne, heapGet_set_other hla_ne_ia2]
      rw [itemsOf_snoc, if_neg (by simp; exact fun he => hidp he.symm)]
      simpa using inv.seen_list id hid
  · intro id hid
    rw [hseenlist] at hid
    exact inv.la_fresh id hid
  · intro id1 hid1 id2 hid2 hne
    rw [hseenlist] at hid1 hid2
    exact inv.la_inj id1 hid1 id2 hid2 hne
  · intro q hq hqn
    rw [hseenlist] at hqn
    have h1 : P.cA q.idv ≠ laf p.idv :=
      fun he => inv.la_fresh p.idv hseen (he ▸ ca_mem_addrs P hq)
    have h2 : P.cA q.idv ≠ p.ia := Ne.symm (w10 p hp q hq).2.2
    rw [heapGet_set_other h1, heapGet_set_other h2]
    exact inv.unseen_cat q hq hqn
  · intro q hq
    rcases List.mem_append.mp hq with hq1 | hq2
    · have hqs := hsub q hq1
      have hqne : q.ia ≠ p.ia := by
        intro he
        exact hpd ((List.inj_on_of_nodup_map w9 hqs hp he) ▸ hq1)
      have hqla : q.ia ≠ laf p.idv :=
        fun he => inv.la_fresh p.idv hseen (he ▸ ia_mem_addrs P hqs)
      rw [heapGet_set_other hqla, heapGet_set_other hqne]
      exact inv.done_items q hq1
    · simp only [List.mem_singleton] at hq2
      subst hq2
      rw [heapGet_set_other (Ne.symm hla_ne_ia)]
      exact heapGet_set_same hia_get _
  · intro q hq hqn
    have hqd : q ∉ done := fun hc => hqn (List.mem_append.mpr (Or.inl hc))
    have hqnp : q ≠ p := fun hc => hqn (List.mem_append.mpr (Or.inr (by simp [hc])))
    have hqne : q.ia ≠ p.ia := by
      intro he
      exact hqnp (List.inj_on_of_nodup_map w9 hq hp he)
    have hqla : q.ia ≠ laf p.idv :=
      fun he => inv.la_fresh p.idv hseen (he ▸ ia_mem_addrs P hq)
    rw [heapGet_set_other hqla, heapGet_set_other hqne]
    exact inv.rest_items q hq hqd

theorem handle_item_step_new (P : ItemSetup) (hwf : P.WF) (laf : HVal → Nat)
    (done : List ItemPair) (p : ItemPair) (hp : p ∈ P.ps) (hpd : p ∉ done)
    (hsub : ∀ q ∈ done, q ∈ P.ps) (h : Heap) (res : List (HVal × Nat))
    (inv : LoopInv P laf done h res) (hnew : p.idv ∉ firstSeenList done) :
    ∃ h', handle_item_step h res (.href p.pa)
        = some (h', res ++ [(p.idv, P.cA p.idv)])
      ∧ LoopInv P (fun id => if id = p.idv then (heapAlloc h (HObj.hlist [])).2 else laf id)
          (done ++ [p]) h' (res ++ [(p.idv, P.cA p.idv)]) := by
  obtain ⟨w1, w2, w3, w4, w5, w6, w7, w8, w9, w10, w11⟩ := hwf
  obtain ⟨la, hla⟩ : ∃ la, (heapAlloc h (HObj.hlist [])).2 = la := ⟨_, rfl⟩
  have hfresh : la ∉ h.map Prod.fst := hla ▸ heapAlloc_snd_fresh h _
  have halloc1 : (heapAlloc h (HObj.hlist [])).1 = h ++ [(la, HObj.hlist [])] := by
    rw [heapAlloc_fst, hla]
  have hca_get : heapGet h (P.cA p.idv) = some (.hdict (P.cF p.idv)) :=
    inv.unseen_cat p hp hnew
  obtain ⟨eID, hfID, hvID⟩ :
      ∃ e, (P.cF p.idv).find? (fun x => x.1 == "ID") = some e ∧ e.2 = p.idv := by
    have hw := w3 p hp
    cases hf : (P.cF p.idv).find? (fun x => x.1 == "ID") with
    | none => rw [hf] at hw; simp at hw
    | some e =>
      rw [hf] at hw
      simp only [Option.map_some', Option.some.injEq] at hw
      exact ⟨e, rfl, hw⟩
  have hcatv : dictGetK h p.pa "catObj" = some (.href (P.cA p.idv)) := by
    rw [dictGetK, inv.pair_cells p hp]
    rfl
  have hcatid : dictGetK h (P.cA p.idv) "ID" = some p.idv := by
    have hd := dictGetK_of_find hca_get hfID
    rw [hvID] at hd
    exact hd
  have hres_any : res.any (fun e => e.1 == p.idv) = false := by
    rw [inv.res_eq, any_map_fst]
    cases hb : (firstSeenList done).any (fun x => x == p.idv) with
    | true => exact absurd (any_beq_iff_mem.mp hb) hnew
    | false => rfl
  have hia_dom : p.ia ∈ h.map Prod.fst := heapGet_mem (inv.rest_items p hp hpd)
  have hca_dom : P.cA p.idv ∈ h.map Prod.fst := heapGet_mem hca_get
  have hpa_ne_ca : p.pa ≠ P.cA p.idv := (w10 p hp p hp).1
  have hia_ne_ca : p.ia ≠ P.cA p.idv := (w10 p hp p hp).2.2
  have hla_ne_ia : la ≠ p.ia := fun he => hfresh (he ▸ hia_dom)
  have hla_ne_ca : la ≠ P.cA p.idv := fun he => hfresh (he ▸ hca_dom)
  have hca_get_hA : heapGet (h ++ [(la, HObj.hlist [])]) (P.cA p.idv)
      = some (.hdict (P.cF p.idv)) := heapGet_append_left hca_get _
  have hsetca : dictSetK (h ++ [(la, HObj.hlist [])]) (P.cA p.idv) "item" (.href la)
      = some (heapSet (h ++ [(la, HObj.hlist [])]) (P.cA p.idv)
          (.hdict (entriesSet (P.cF p.idv) "item" (.href la)))) :=
    dictSetK_of_get hca_get_hA _ _
  have hentries : entriesSet (P.cF p.idv) "item" (.href la)
      = P.cF p.idv ++ [("item", HVal.href la)] := entriesSet_of_absent (w4 p hp) _
  have hpa_get_h1 : heapGet (heapSet (h ++ [(la, HObj.hlist [])]) (P.cA p.idv)
        (.hdict (entriesSet (P.cF p.idv) "item" (.href la)))) p.pa
      = some (.hdict [("catObj", .href (P.cA p.idv)), ("itemObj", .href p.ia)]) := by
    rw [heapGet_set_other hpa_ne_ca]
    exact heapGet_append_left (inv.pair_cells p hp) _
  have hitemv : dictGetK (heapSet (h ++ [(la, HObj.hlist [])]) (P.cA p.idv)
        (.hdict (entriesSet (P.cF p.idv) "item" (.href la)))) p.pa "itemObj"
      = some (.href p.ia) := by
    rw [dictGetK, hpa_get_h1]
    rfl
  have hia_get_h1 : heapGet (heapSet (h ++ [(la, HObj.hlist [])]) (P.cA p.idv)
        (.hdict (entriesSet (P.cF p.idv) "item" (.href la)))) p.ia
      = some (.hdict p.ifs) := by
    rw [heapGet_set_other hia_ne_ca]
    exact heapGet_append_left (inv.rest_items p hp hpd) _
  have hset_ia : dictSetK (heapSet (h ++ [(la, HObj.hlist [])]) (P.cA p.idv)
        (.hdict (entriesSet (P.cF p.idv) "item" (.href la)))) p.ia "CatID" p.idv
      = some (heapSet (heapSet (h ++ [(la, HObj.hlist [])]) (P.cA p.idv)
          (.hdict (entriesSet (P.cF p.idv) "item" (.href la)))) p.ia
          (.hdict (entriesSet p.ifs "CatID" p.idv))) :=
    dictSetK_of_get hia_get_h1 _ _
  have hca_get_h2 : heapGet (heapSet (heapSet (h ++ [(la, HObj.hlist [])]) (P.cA p.idv)
        (.hdict (entriesSet (P.cF p.idv) "item" (.href la)))) p.ia
        (.hdict (entriesSet p.ifs "CatID" p.idv))) (P.cA p.idv)
      = some (.hdict (P.cF p.idv ++ [("item", HVal.href la)])) := by
    rw [heapGet_set_other (Ne.symm hia_ne_ca)]
    rw [heapGet_set_same hca_get_hA]
    rw [hentries]
  have hfind_item :
      (P.cF p.idv ++ [("item", HVal.href la)]).find? (fun x => x.1 == "item")
        = some ("item", HVal.href la) := by
    rw [find?_append_of_none _ (find?_of_absent (w4 p hp))]
    simp [List.find?]
  have hitem_lookup : dictGetK (heapSet (heapSet (h ++ [(la, HObj.hlist [])]) (P.cA p.idv)
        (.hdict (entriesSet (P.cF p.idv) "item" (.href la)))) p.ia
        (.hdict (entriesSet p.ifs "CatID" p.idv))) (P.cA p.idv) "item"
      = some (.href la) :=
    dictGetK_of_find hca_get_h2 hfind_item
  have hla_get_h2 : heapGet (heapSet (heapSet (h ++ [(la, HObj.hlist [])]) (P.cA p.idv)
        (.hdict (entriesSet (P.cF p.idv) "item" (.href la)))) p.ia
        (.hdict (entriesSet p.ifs "CatID" p.idv))) la
      = some (.hlist []) := by
    rw [heapGet_set_other hla_ne_ia, heapGet_set_other hla_ne_ca]
    exact heapGet_append_fresh hfresh _
  have happend : listAppend (heapSet (heapSet (h ++ [(la, HObj.hlist [])]) (P.cA p.idv)
        (.hdict (entriesSet (P.cF p.idv) "item" (.href la)))) p.ia
        (.hdict (entriesSet p.ifs "CatID" p.idv))) la (.href p.ia)
      = some (heapSet (heapSet (heapSet (h ++ [(la, HObj.hlist [])]) (P.cA p.idv)
          (.hdict (entriesSet (P.cF p.idv) "item" (.href la)))) p.ia
          (.hdict (entriesSet p.ifs "CatID" p.idv))) la
          (.hlist ([] ++ [HVal.href p.ia]))) :=
    listAppend_of_get hla_get_h2 _
  have hseenlist : firstSeenList (done ++ [p]) = firstSeenList done ++ [p.idv] := by
    rw [firstSeenList_snoc, if_neg]
    intro hb
    exact hnew (any_beq_iff_mem.mp hb)
  have hitems_nil : itemsOf p.idv done = [] := by
    rw [itemsOf, List.filter_eq_nil_iff]
    intro q hq hqb
    exact hnew (mem_firstSeenList_iff.mpr ⟨q, hq, beq_iff_eq.mp hqb⟩)
  have heval : handle_item_step h res (.href p.pa)
      = some (heapSet (heapSet (heapSet (h ++ [(la, HObj.hlist [])]) (P.cA p.idv)
          (.hdict (entriesSet (P.cF p.idv) "item" (.href la)))) p.ia
          (.hdict (entriesSet p.ifs "CatID" p.idv))) la
          (.hlist ([] ++ [HVal.href p.ia])), res ++ [(p.idv, P.cA p.idv)]) := by
    simp only [handle_item_step, Option.bind_eq_bind, hcatv, Option.some_bind, hcatid,
      w6 p hp, Bool.false_eq_true, if_false, hres_any, hla, halloc1, hsetca,
      Option.map_some', hitemv, hset_ia, hitem_lookup, happend]
  refine ⟨_, heval, ?_, ?_, ?_, ?_, ?_, ?_, ?_, ?_, ?_, ?_⟩
  · rw [hseenlist, List.map_append, inv.res_eq]
    rfl
  · intro a ha
    rw [heapSet_map_fst, heapSet_map_fst, heapSet_map_fst, List.map_append]
    exact List.mem_append.mpr (Or.inl (inv.dom a ha))
  · intro q hq
    have h1 : q.pa ≠ la := fun he => hfresh (he ▸ heapGet_mem (inv.pair_cells q hq))
    rw [heapGet_set_other h1, heapGet_set_other (w10 q hq p hp).2.1,
      heapGet_set_other (w10 q hq p hp).1]
    exact heapGet_append_left (inv.pair_cells q hq) _
  · intro id hid
    rw [hseenlist] at hid
    rcases List.mem_append.mp hid with hid1 | hid2
    · have hidne : id ≠ p.idv := fun he => hnew (he ▸ hid1)
      obtain ⟨q, hq, hqid⟩ := mem_firstSeenList_iff.mp hid1
      have hqs := hsub q hq
      have h1 : P.cA id ≠ la :=
        fun he => hfresh (he ▸ heapGet_mem (inv.seen_cat id hid1))
      have h2 : P.cA id ≠ p.ia := hqid ▸ Ne.symm (w10 p hp q hqs).2.2
      have h3 : P.cA id ≠ P.cA p.idv := by
        rw [← hqid]
        exact w11 q hqs p hp (hqid.symm ▸ hidne)
      rw [heapGet_set_other h1, heapGet_set_other h2, heapGet_set_other h3]
      rw [if_neg hidne]
      exact heapGet_append_left (inv.seen_cat id hid1) _
    · simp only [List.mem_singleton] at hid2
      subst hid2
      rw [if_pos rfl, hla]
      rw [heapGet_set_other (Ne.symm hla_ne_ca), heapGet_set_other (Ne.symm hia_ne_ca)]
      rw [heapGet_set_same hca_get_hA, hentries]
  · intro id hid
    rw [hseenlist] at hid
    rcases List.mem_append.mp hid with hid1 | hid2
    · have hidne : id ≠ p.idv := fun he => hnew (he ▸ hid1)
      have h1 : laf id ≠ la :=
        fun he => hfresh (he ▸ heapGet_mem (inv.seen_list id hid1))
      have h2 : laf id ≠ p.ia := fun he => inv.la_fresh id hid1 (he ▸ ia_mem_addrs P hp)
      have h3 : laf id ≠ P.cA p.idv :=
        fun he => inv.la_fresh id hid1 (he ▸ ca_mem_addrs P hp)
      rw [if_neg hidne, heapGet_set_other h1, heapGet_set_other h2, heapGet_set_other h3]
      rw [itemsOf_snoc, if_neg (by simp; exact fun he => hidne he.symm), List.append_nil]
      exact heapGet_append_left (inv.seen_list id hid1) _
    · simp only [List.mem_singleton] at hid2
      subst hid2
      rw [if_pos rfl, hla]
      rw [heapGet_set_same hla_get_h2]
      rw [itemsOf_snoc, if_pos (by simp), hitems_nil]
      simp
  · intro id hid
    rw [hseenlist] at hid
    rcases List.mem_append.mp hid with hid1 | hid2
    · have hidne : id ≠ p.idv := fun he => hnew (he ▸ hid1)
      rw [if_neg hidne]
      exact inv.la_fresh id hid1
    · simp only [List.mem_singleton] at hid2
      subst hid2
      rw [if_pos rfl, hla]
      intro hmem
      exact hfresh (inv.dom la (addrs_subset_dom P ⟨w1, w2, w3, w4, w5, w6, w7, w8, w9, w10, w11⟩ la hmem))
  · intro id1 hid1 id2 hid2 hne
    rw [hseenlist] at hid1 hid2
    rcases List.mem_append.mp hid1 with ha1 | ha1 <;>
      rcases List.mem_append.mp hid2 with ha2 | ha2
    · have hne1 : id1 ≠ p.idv := fun he => hnew (he ▸ ha1)
      have hne2 : id2 ≠ p.idv := fun he => hnew (he ▸ ha2)
      rw [if_neg hne1, if_neg hne2]
      exact inv.la_inj id1 ha1 id2 ha2 hne
    · simp only [List.mem_singleton] at ha2
      subst ha2
      have hne1 : id1 ≠ p.idv := fun he => hnew (he ▸ ha1)
      rw [if_neg hne1, if_pos rfl, hla]
      intro he
      exact hfresh (he ▸ heapGet_mem (inv.seen_list id1 ha1))
    · simp only [List.mem_singleton] at ha1
      subst ha1
      have hne2 : id2 ≠ p.idv := fun he => hnew (he ▸ ha2)
      rw [if_pos rfl, if_neg hne2, hla]
      intro he
      exact hfresh (he.symm ▸ heapGet_mem (inv.seen_list id2 ha2))
    · simp only [List.mem_singleton] at ha1 ha2
      exact absurd (ha1.trans ha2.symm) hne
  · intro q hq hqn
    rw [hseenlist] at hqn
    have hqn1 : q.idv ∉ firstSeenList done :=
      fun hc => hqn (List.mem_append.mpr (Or.inl hc))
    have hqnp : q.idv ≠ p.idv :=
      fun hc => hqn (List.mem_append.mpr (Or.inr (by simp [hc])))
    have h1 : P.cA q.idv ≠ la :=
      fun he => hfresh (he ▸ heapGet_mem (inv.unseen_cat q hq hqn1))
    have h2 : P.cA q.idv ≠ p.ia := Ne.symm (w10 p hp q hq).2.2
    have h3 : P.cA q.idv ≠ P.cA p.idv := w11 q hq p hp hqnp
    rw [heapGet_set_other h1, heapGet_set_other h2, heapGet_set_other h3]
    exact heapGet_append_left (inv.unseen_cat q hq hqn1) _
  · intro q hq
    rcases List.mem_append.mp hq with hq1 | hq2
    · have hqs := hsub q hq1
      have hqne : q.ia ≠ p.ia := by
        intro he
        exact hpd ((List.inj_on_of_nodup_map w9 hqs hp he) ▸ hq1)
      have h1 : q.ia ≠ la := fun he => hfresh (he ▸ heapGet_mem (inv.done_items q hq1))
      have h3 : q.ia ≠ P.cA p.idv := (w10 q hqs p hp).2.2
      rw [heapGet_set_other h1, heapGet_set_other hqne, heapGet_set_other h3]
      exact heapGet_append_left (inv.done_items q hq1) _
    · simp only [List.mem_singleton] at hq2
      subst hq2
      rw [heapGet_set_other (Ne.symm hla_ne_ia)]
      exact heapGet_set_same hia_get_h1 _
  · intro q hq hqn
    have hqd : q ∉ done := fun hc => hqn (List.mem_append.mpr (Or.inl hc))
    have hqnp : q ≠ p := fun hc => hqn (List.mem_append.mpr (Or.inr (by simp [hc])))
    have hqne : q.ia ≠ p.ia := by
      intro he
      exact hqnp (List.inj_on_of_nodup_map w9 hq hp he)
    have h1 : q.ia ≠ la := fun he => hfresh (he ▸ heapGet_mem (inv.rest_items q hq hqd))
    have h3 : q.ia ≠ P.cA p.idv := (w10 q hq p hp).2.2
    rw [heapGet_set_other h1, heapGet_set_other hqne, heapGet_set_other h3]
    exact heapGet_append_left (inv.rest_items q hq hqd) _

theorem handle_item_loop_inv (P : ItemSetup) (hwf : P.WF) :
    ∀ (rest done : List ItemPair) (laf : HVal → Nat) (h : Heap) (res : List (HVal × Nat)),
      P.ps = done ++ rest → LoopInv P laf done h res →
      ∃ h' laf', handle_item_loop h res (rest.map (fun p => HVal.href p.pa))
          = some (h', (firstSeenList P.ps).map (fun id => (id, P.cA id)))
        ∧ LoopInv P laf' P.ps h'
            ((firstSeenList P.ps).map (fun id => (id, P.cA id))) := by
  intro rest
  induction rest with
  | nil =>
    intro done laf h res hps inv
    rw [List.append_nil] at hps
    refine ⟨h, laf, ?_, ?_⟩
    · show some (h, res) = _
      rw [inv.res_eq, hps]
    · rw [hps, ← inv.res_eq]
      exact inv
  | cons p rest ih =>
    intro done laf h res hps inv
    have w9 := hwf.2.2.2.2.2.2.2.2.1
    have hp : p ∈ P.ps := hps ▸ List.mem_append.mpr (Or.inr (by simp))
    have hpd : p ∉ done := by
      intro hc
      have hnd : P.ps.Nodup := List.Nodup.of_map _ w9
      rw [hps, List.nodup_append] at hnd
      exact hnd.2.2 hc (by simp)
    have hsub : ∀ q ∈ done, q ∈ P.ps := fun q hq => hps ▸ List.mem_append.mpr (Or.inl hq)
    have hps' : P.ps = (done ++ [p]) ++ rest := by
      rw [hps, List.append_assoc]
      rfl
    by_cases hseen : p.idv ∈ firstSeenList done
    · obtain ⟨h', heval, inv'⟩ :=
        handle_item_step_seen P hwf laf done p hp hpd hsub h res inv hseen
      obtain ⟨h'', laf'', hloop, inv''⟩ := ih (done ++ [p]) laf h' res hps' inv'
      refine ⟨h'', laf'', ?_, inv''⟩
      rw [List.map_cons]
      simp only [handle_item_loop, Option.bind_eq_bind, heval, Option.some_bind]
      exact hloop
    · obtain ⟨h', heval, inv'⟩ :=
        handle_item_step_new P hwf laf done p hp hpd hsub h res inv hseen
      obtain ⟨h'', laf'', hloop, inv''⟩ :=
        ih (done ++ [p]) _ h' (res ++ [(p.idv, P.cA p.idv)]) hps' inv'
      refine ⟨h'', laf'', ?_, inv''⟩
      rw [List.map_cons]
      simp only [handle_item_loop, Option.bind_eq_bind, heval, Option.some_bind]
      exact hloop

theorem handle_item_loop_spec (P : ItemSetup) (hwf : P.WF) :
    ∃ h' laf', handle_item_loop P.h0 [] (P.ps.map (fun p => HVal.href p.pa))
        = some (h', (firstSeenList P.ps).map (fun id => (id, P.cA id)))
      ∧ LoopInv P laf' P.ps h'
          ((firstSeenList P.ps).map (fun id => (id, P.cA id))) := by
  obtain ⟨w1, w2, w3, w4, w5, w6, w7, w8, w9, w10, w11⟩ := hwf
  refine handle_item_loop_inv P ⟨w1, w2, w3, w4, w5, w6, w7, w8, w9, w10, w11⟩
    P.ps [] (fun _ => 0) P.h0 [] rfl
    ⟨rfl, fun a ha => ha, w1, ?_, ?_, ?_, ?_, fun p hp _ => w2 p hp, ?_, fun p hp _ => w5 p hp⟩
  · intro id hid
    exact absurd hid (by simp [firstSeenList])
  · intro id hid
    exact absurd hid (by simp [firstSeenList])
  · intro id hid
    exact absurd hid (by simp [firstSeenList])
  · intro id1 hid1
    exact absurd hid1 (by simp [firstSeenList])
  · intro q hq
    exact absurd hq (by simp)

theorem resolveHV_scalar (h : Heap) (fuel : Nat) {v : HVal} (hs : v.isRef = false) :
    resolveHV h fuel v = some (scalarVal v) := by
  cases v <;> cases fuel <;> first
    | rfl
    | exact absurd hs (by simp [HVal.isRef])

theorem resolveHV_href (h : Heap) (n : Nat) (a : Nat) :
    resolveHV h (n + 1) (.href a)
      = match heapGet h a with
        | some (.hdict fs) => (resolveFieldsAux (resolveHV h n) fs).map .vmap
        | some (.hlist es) => (resolveElemsAux (resolveHV h n) es).map .vlist
        | none => none := rfl

theorem resolveFieldsAux_scalar {f : HVal → Option Val} :
    ∀ {fs : List (String × HVal)}, (∀ e ∈ fs, f e.2 = some (scalarVal e.2)) →
      resolveFieldsAux f fs = some (fs.map (fun e => (e.1, scalarVal e.2))) := by
  intro fs
  induction fs with
  | nil => intro _; rfl
  | cons e rest ih =>
    intro hf
    obtain ⟨k, v⟩ := e
    rw [resolveFieldsAux, hf ⟨k, v⟩ (by simp), ih (fun x hx => hf x (by simp [hx]))]
    rfl

theorem resolveFieldsAux_append_some {f : HVal → Option Val} :
    ∀ {l1 l2 : List (String × HVal)} {r1 r2 : List (String × Val)},
      resolveFieldsAux f l1 = some r1 → resolveFieldsAux f l2 = some r2 →
      resolveFieldsAux f (l1 ++ l2) = some (r1 ++ r2) := by
  intro l1
  induction l1 with
  | nil =>
    intro l2 r1 r2 h1 h2
    cases h1
    exact h2
  | cons e rest ih =>
    intro l2 r1 r2 h1 h2
    obtain ⟨k, v⟩ := e
    rw [resolveFieldsAux] at h1
    cases hfv : f v with
    | none => rw [hfv] at h1; simp at h1
    | some v' =>
      rw [hfv] at h1
      cases hrest : resolveFieldsAux f rest with
      | none => rw [hrest] at h1; simp at h1
      | some r' =>
        rw [hrest] at h1
        simp only [Option.some.injEq] at h1
        rw [List.cons_append, resolveFieldsAux, hfv, ih hrest h2, ← h1]
        rfl

theorem resolveElemsAux_congr {f : HVal → Option Val} :
    ∀ {es : List HVal} {rs : List Val},
      List.Forall₂ (fun e r => f e = some r) es rs → resolveElemsAux f es = some rs := by
  intro es
  induction es with
  | nil =>
    intro rs h
    cases h
    rfl
  | cons e rest ih =>
    intro rs h
    cases h with
    | cons he hrest => rw [resolveElemsAux, he, ih hrest]

theorem forall₂_map_map {R : β → γ → Prop} (f : α → β) (g : α → γ) :
    ∀ {l : List α}, (∀ x ∈ l, R (f x) (g x)) → List.Forall₂ R (l.map f) (l.map g) := by
  intro l
  induction l with
  | nil => intro _; exact .nil
  | cons a t ih =>
    intro h
    exact .cons (h a (by simp)) (ih (fun x hx => h x (by simp [hx])))

theorem resolve_item_dict (P : ItemSetup) (hwf : P.WF) {laf : HVal → Nat} {h' : Heap}
    (inv : LoopInv P laf P.ps h' ((firstSeenList P.ps).map (fun id => (id, P.cA id))))
    (fuel : Nat) {q : ItemPair} (hq : q ∈ P.ps) :
    resolveHV h' (fuel + 1) (.href q.ia)
      = some (.vmap ((entriesSet q.ifs "CatID" q.idv).map (fun e => (e.1, scalarVal e.2)))) := by
  obtain ⟨_, _, _, _, _, w6, _, w8, _, _, _⟩ := hwf
  rw [resolveHV_href, inv.done_items q hq]
  show (resolveFieldsAux (resolveHV h' fuel) (entriesSet q.ifs "CatID" q.idv)).map Val.vmap = _
  rw [resolveFieldsAux_scalar (fun e he =>
    resolveHV_scalar h' fuel (entriesSet_scalar (w8 q hq) (w6 q hq) "CatID" e he))]
  rfl

theorem resolve_group (P : ItemSetup) (hwf : P.WF) {laf : HVal → Nat} {h' : Heap}
    (inv : LoopInv P laf P.ps h' ((firstSeenList P.ps).map (fun id => (id, P.cA id))))
    (fuel : Nat) {id : HVal} (hid : id ∈ firstSeenList P.ps) :
    resolveHV h' (fuel + 3) (.href (P.cA id)) = some (groupTree P id) := by
  obtain ⟨q0, hq0, hq0id⟩ := mem_firstSeenList_iff.mp hid
  have w7 := hwf.2.2.2.2.2.2.1
  show resolveHV h' ((fuel + 2) + 1) (.href (P.cA id)) = some (groupTree P id)
  rw [resolveHV_href, inv.seen_cat id hid]
  show (resolveFieldsAux (resolveHV h' (fuel + 2))
      (P.cF id ++ [("item", HVal.href (laf id))])).map Val.vmap = some (groupTree P id)
  have hfields : resolveFieldsAux (resolveHV h' (fuel + 2)) (P.cF id)
      = some ((P.cF id).map (fun e => (e.1, scalarVal e.2))) := by
    rw [resolveFieldsAux_scalar (fun e he =>
      resolveHV_scalar h' (fuel + 2) (w7 q0 hq0 e (hq0id.symm ▸ he)))]
  have hitemlist : resolveHV h' (fuel + 2) (.href (laf id))
      = some (.vlist ((itemsOf id P.ps).map (fun q =>
          .vmap ((entriesSet q.ifs "CatID" q.idv).map (fun e => (e.1, scalarVal e.2)))))) := by
    show resolveHV h' ((fuel + 1) + 1) (.href (laf id)) = _
    rw [resolveHV_href, inv.seen_list id hid]
    show (resolveElemsAux (resolveHV h' (fuel + 1))
        ((itemsOf id P.ps).map (fun q => HVal.href q.ia))).map Val.vlist = _
    have hres : resolveElemsAux (resolveHV h' (fuel + 1))
        ((itemsOf id P.ps).map (fun q => HVal.href q.ia))
        = some ((itemsOf id P.ps).map (fun q =>
            Val.vmap ((entriesSet q.ifs "CatID" q.idv).map (fun e => (e.1, scalarVal e.2))))) := by
      apply resolveElemsAux_congr
      apply forall₂_map_map
      intro q hqmem
      have hqps : q ∈ P.ps := List.mem_of_mem_filter hqmem
      exact resolve_item_dict P hwf inv fuel hqps
    rw [hres]
    rfl
  have hlast : resolveFieldsAux (resolveHV h' (fuel + 2)) [("item", HVal.href (laf id))]
      = some [("item", .vlist ((itemsOf id P.ps).map (fun q =>
          .vmap ((entriesSet q.ifs "CatID" q.idv).map (fun e => (e.1, scalarVal e.2))))))] := by
    rw [resolveFieldsAux, hitemlist]
    rfl
  rw [resolveFieldsAux_append_some hfields hlast]
  rfl

/-- C2 (amended, general): on every aliased well-formed input — pairs of one
category share the identical category object, as the AMF3 decoder's object
back-references produce — `handle_item_xml_info` groups exactly as claimed:
the result holds one group per distinct category ID (`firstSeenList` is
duplicate-free and covers exactly the IDs occurring in the input), groups
appear in first-seen order, each group's `item` list holds that category's
items in original encounter order, each item has gained `CatID` equal to its
category's ID, and the whole tree is wrapped under `root → items` and
annotated by `add_at_prefix_to_keys`. -/
theorem C2_grouping_aliased (P : ItemSetup) (hwf : P.WF) :
    ∃ h', handle_item_loop P.h0 [] (P.ps.map (fun p => HVal.href p.pa))
        = some (h', (firstSeenList P.ps).map (fun id => (id, P.cA id)))
      ∧ (∀ fuel, handle_item_xml_info P.h0 (P.ps.map (fun p => HVal.href p.pa)) (fuel + 3)
          = some (.vmap [("root", add_at_prefix_to_keys (.vmap [("items",
              .vlist ((firstSeenList P.ps).map (groupTree P)))]))]))
      ∧ (firstSeenList P.ps).Nodup
      ∧ (∀ id, id ∈ firstSeenList P.ps ↔ ∃ p ∈ P.ps, p.idv = id)
      ∧ (∀ q ∈ P.ps, ("CatID", scalarVal q.idv)
          ∈ (entriesSet q.ifs "CatID" q.idv).map (fun e => (e.1, scalarVal e.2))) := by
  obtain ⟨h', laf', hloop, inv⟩ := handle_item_loop_spec P hwf
  refine ⟨h', hloop, ?_, firstSeenList_nodup P.ps, fun id => mem_firstSeenList_iff, ?_⟩
  · intro fuel
    have hgroups : resolveElems h' (fuel + 3)
        (((firstSeenList P.ps).map (fun id => (id, P.cA id))).map (fun e => HVal.href e.2))
        = some ((firstSeenList P.ps).map (groupTree P)) := by
      rw [resolveElems, List.map_map]
      apply resolveElemsAux_congr
      apply forall₂_map_map
      intro id hid
      exact resolve_group P hwf inv fuel hid
    rw [handle_item_xml_info]
    simp only [Option.bind_eq_bind, hloop, Option.some_bind, hgroups]
  · intro q hq
    exact List.mem_map_of_mem _ (mem_entriesSet_self q.ifs "CatID" q.idv)

/-- The three-pair example of spec §8 as an `ItemSetup` over
`itemExampleHeapAliased`: the two category-1 pairs share the category object
at address 2. -/
def itemExampleSetup : ItemSetup :=
  ⟨[⟨1, 3, .hint 1, [("name", .hstr "sword")]⟩,
    ⟨4, 6, .hint 1, [("name", .hstr "shield")]⟩,
    ⟨7, 9, .hint 2, [("name", .hstr "potion")]⟩],
   fun id => if id = .hint 1 then 2 else 8,
   fun id => if id = .hint 1 then [("ID", .hint 1)] else [("ID", .hint 2)],
   itemExampleHeapAliased⟩

/-- Witness for C2 (amended) on the aliased spec §8 example: exactly two
groups in first-seen order, category 1 with `sword` then `shield` each
carrying `CatID 1`, category 2 with `potion` carrying `CatID 2`, annotated. -/
theorem C2_grouping_aliased_witness :
    handle_item_xml_info itemExampleSetup.h0
        (itemExampleSetup.ps.map (fun p => HVal.href p.pa)) (97 + 3)
      = some (.vmap [("root", .vmap [("items", .vlist
          [ .vmap [("@ID", .vint 1), ("item", .vlist
              [ .vmap [("@name", .vstr "sword"), ("@CatID", .vint 1)],
                .vmap [("@name", .vstr "shield"), ("@CatID", .vint 1)] ])],
            .vmap [("@ID", .vint 2), ("item", .vlist
              [ .vmap [("@name", .vstr "potion"), ("@CatID", .vint 2)] ])] ])])]) := by
  obtain ⟨h', hloop, hout, hrest⟩ := C2_grouping_aliased itemExampleSetup
    (by unfold ItemSetup.WF; decide)
  rw [hout 97]
  decide

end UpdateConfig
